import Mathlib

/-!
Verification development for the macro-analysis dashboard's data pipeline
(collectors under modules/collector, calculators under modules/calculator,
and modules/utils.py).

Tables are shallowly embedded as date-indexed row lists.  Dates are modelled
as integer day numbers on the proleptic Gregorian calendar (pandas Timestamps
are points on a day line; calendar components are recovered with the standard
civil-from-days conversion).  Cell values are rationals; a missing value
(NaN) is `none`.
-/

/-- Wide table: a date-indexed frame.  `cols` are the column names, `rows`
pairs each date (integer day number) with the list of cell values of that
row.  Mirrors a pandas DataFrame with a DatetimeIndex. -/
structure DFrame where
  cols : List String
  rows : List (Int × List (Option Rat))
deriving DecidableEq

/-- Index of the frame, as the list of its row dates. -/
def DFrame.dates (T : DFrame) : List Int := T.rows.map Prod.fst

/-- Well-formedness: the WideTable invariant of the data model — a non-empty
index of strictly increasing (hence unique) dates, and rectangular rows. -/
def DFrame.WF (T : DFrame) : Prop :=
  T.rows ≠ [] ∧ List.Pairwise (· < ·) T.dates ∧ ∀ r ∈ T.rows, r.2.length = T.cols.length

instance (T : DFrame) : Decidable T.WF :=
  inferInstanceAs (Decidable (T.rows ≠ [] ∧ List.Pairwise (· < ·) T.dates ∧
    ∀ r ∈ T.rows, r.2.length = T.cols.length))

/-- Value of the frame at date `d`, column position `c`; `none` when the date
is absent from the index or the cell is missing.  This is exactly the cell
the pandas `reindex` step sees at label `d`. -/
def origCell (T : DFrame) (d : Int) (c : Nat) : Option Rat :=
  match T.rows.find? (fun r => r.1 == d) with
  | some r => (r.2[c]?).join
  | none => none

/-- Row of the frame at date `d` (by label lookup), if present. -/
def rowAt (T : DFrame) (d : Int) : Option (List (Option Rat)) :=
  (T.rows.find? (fun r => r.1 == d)).map Prod.snd

/-- Forward-fill scan: walk back from date `d` for at most `n` days and
return the first present value of column `c`.  Models one cell of
`df.ffill()` on a daily-reindexed frame. -/
def lookback (T : DFrame) (c : Nat) : Int → Nat → Option Rat
  | _, 0 => none
  | d, n + 1 =>
    match origCell T d c with
    | some v => some v
    | none => lookback T c (d - 1) n

/-- Cell of `fill_calendar` at date `d`, column `c`: the forward-fill scan
bounded below by the calendar start `lo`. -/
def ffillCell (T : DFrame) (lo : Int) (c : Nat) (d : Int) : Option Rat :=
  lookback T c d (d + 1 - lo).toNat

/-- Rows of a daily-reindexed, per-cell filled frame: `n` consecutive dates
starting at `d`, each row holding `w` cells produced by `cellf`. -/
def fillRows (cellf : Int → Nat → Option Rat) (w : Nat) : Int → Nat → List (Int × List (Option Rat))
  | _, 0 => []
  | d, n + 1 => (d, (List.range w).map (cellf d)) :: fillRows cellf w (d + 1) n

/-- Embedding of `fill_calendar` (modules/utils.py, also
`KofiaCalc.fill_calendar` and `TreasuryCalc.fill_calendar`): reindex to the
full daily range `date_range(index.min(), index.max())` and forward fill.
On an empty frame `pd.date_range` would raise; that branch returns an empty
frame and is unreachable for well-formed inputs. -/
def fill_calendar (T : DFrame) : DFrame :=
  match T.dates.min?, T.dates.max? with
  | some lo, some hi =>
    ⟨T.cols, fillRows (fun d c => ffillCell T lo c d) T.cols.length lo (hi + 1 - lo).toNat⟩
  | _, _ => ⟨T.cols, []⟩

/-- Embedding of `get_ref_value` (modules/utils.py, also
`TreasuryCalc.get_ref_value`): `avail = df.index[df.index <= ref]`; the row
at `avail[-1]`, or an all-NaN series over `df.columns` when `avail` is
empty. -/
def get_ref_value (T : DFrame) (ref : Int) : List (Option Rat) :=
  match (T.rows.filter (fun r => decide (r.1 ≤ ref))).getLast? with
  | some r => r.2
  | none => T.cols.map (fun _ => none)

/-- Specification-side description of "the row at the latest date ≤ d": take
the maximum index entry ≤ `d` and look its row up by label. -/
def latestRowLE (T : DFrame) (d : Int) : Option (List (Option Rat)) :=
  match (T.dates.filter (fun x => decide (x ≤ d))).max? with
  | some m => rowAt T m
  | none => none

/-- Specification-side description of a forward-filled cell: the value of
column `c` at the latest date ≤ `d` whose `c`-cell is present, `none` when
every such cell is missing. -/
def lastObs (T : DFrame) (c : Nat) (d : Int) : Option Rat :=
  ((T.rows.filter (fun r => decide (r.1 ≤ d))).reverse).findSome? (fun r => (r.2[c]?).join)

/-- Consecutive integer range: `n` days starting at `d` (specification-side
helper naming the gap-free calendar). -/
def intRange : Int → Nat → List Int
  | _, 0 => []
  | d, n + 1 => d :: intRange (d + 1) n

/-!
Merge of two calendar-filled frames, embedding `merge_treasury`
(modules/utils.py) and `TreasuryCalc.merge`: `g.join(k, how="outer")`, then
`ffill()`, then `sort_index()`.  For monotonic date indexes the pandas outer
join produces the sorted union of the indexes, so the post-join forward fill
walks the union in ascending date order.
-/

/-- Sorted union of two date indexes (pandas `Index.union` of monotonic
indexes).  The sort is the stable `sorted`. -/
def sortedUnion (a b : List Int) : List Int :=
  List.insertionSort (· ≤ ·) (a ++ b.filter (fun d => !a.contains d))

/-- Cell of the outer join (before forward fill): left block from `g`, right
block from `k`, `none` where the owning frame lacks the date. -/
def joinCell (g k : DFrame) (d : Int) (c : Nat) : Option Rat :=
  if c < g.cols.length then origCell g d c else origCell k d (c - g.cols.length)

/-- Cell of the joined frame after `ffill()`: last present joined value at a
union date ≤ `d`, scanning the union index in descending order. -/
def unionFfillCell (g k : DFrame) (u : List Int) (d : Int) (c : Nat) : Option Rat :=
  ((u.filter (fun x => decide (x ≤ d))).reverse).findSome? (fun x => joinCell g k x c)

/-- Embedding of `merge_treasury` / `TreasuryCalc.merge`: outer join on the
date index, forward fill, ascending date order. -/
def merge_treasury (g k : DFrame) : DFrame :=
  let u := sortedUnion g.dates k.dates
  ⟨g.cols ++ k.cols,
   u.map (fun d =>
     (d, (List.range (g.cols.length + k.cols.length)).map (fun c => unionFfillCell g k u d c)))⟩

/-- Per-row (column name, value) pairs of a frame row. -/
def rowEntries : List String → List (Option Rat) → List (String × Option Rat)
  | nm :: ns, v :: vs => (nm, v) :: rowEntries ns vs
  | _, _ => []

/-- All (date, column name, value) entries of a frame — the value set the
spec compares when it calls the merge commutative up to column order. -/
def entries (T : DFrame) : List (Int × String × Option Rat) :=
  T.rows.flatMap (fun r => (rowEntries T.cols r.2).map (fun p => (r.1, p.1, p.2)))

/-!
Calendar arithmetic.  pandas Timestamps live on a day line; `Timedelta(days=n)`
is plain subtraction there, while `Timestamp(y, m, 1)` and
`DateOffset(years=1)` need the civil (proleptic Gregorian) calendar.  The two
conversions below are the standard civil-from-days / days-from-civil
algorithms (epoch 1970-01-01 = day 0).
-/

/-- Gregorian leap-year test. -/
def isLeap (y : Int) : Bool :=
  y % 4 == 0 && (y % 100 != 0 || y % 400 == 0)

/-- Number of days in month `m` of year `y`. -/
def daysInMonth (y : Int) (m : Nat) : Nat :=
  if m == 2 then (if isLeap y then 29 else 28)
  else if m == 4 || m == 6 || m == 9 || m == 11 then 30 else 31

/-- Day number of the civil date `y-m-d` (1970-01-01 = 0). -/
def daysFromCivil (y : Int) (m : Nat) (d : Nat) : Int :=
  let yy : Int := if m ≤ 2 then y - 1 else y
  let era : Int := yy / 400
  let yoe : Int := yy - era * 400
  let mp : Nat := (m + 9) % 12
  let doy : Int := (153 * mp + 2) / 5 + d - 1
  let doe : Int := yoe * 365 + yoe / 4 - yoe / 100 + doy
  era * 146097 + doe - 719468

/-- Civil date (year, month, day) of a day number. -/
def civilFromDays (z0 : Int) : Int × Nat × Nat :=
  let z : Int := z0 + 719468
  let era : Int := z / 146097
  let doe : Nat := (z - era * 146097).toNat
  let yoe : Nat := (doe - doe / 1460 + doe / 36524 - doe / 146096) / 365
  let y : Int := (yoe : Int) + era * 400
  let doy : Nat := doe - (365 * yoe + yoe / 4 - yoe / 100)
  let mp : Nat := (5 * doy + 2) / 153
  let d : Nat := doy - (153 * mp + 2) / 5 + 1
  let m : Nat := if mp < 10 then mp + 3 else mp - 9
  (if m ≤ 2 then y + 1 else y, m, d)

/-- Embedding of `today - pd.DateOffset(years=1)`: same calendar date one
year back, with the day clamped to the target month's length (Feb 29 maps to
Feb 28 of the previous year). -/
def subYears1 (t : Int) : Int :=
  let ymd := civilFromDays t
  daysFromCivil (ymd.1 - 1) ymd.2.1 (min ymd.2.2 (daysInMonth (ymd.1 - 1) ymd.2.1))

/-- Embedding of the `ref_infos` list of `build_change_summary`
(modules/utils.py and `TreasuryCalc.build_change_summary`): the five lookback
reference dates computed by fixed calendar arithmetic. -/
def ref_infos (today : Int) : List (String × Int) :=
  let ymd := civilFromDays today
  [("1D", today - 1),
   ("1W", today - 7),
   ("MTD", daysFromCivil ymd.1 ymd.2.1 1 - 1),
   ("YTD", daysFromCivil (ymd.1 - 1) 12 31),
   ("YoY", subYears1 today)]

/-- Embedding of `series.get(col_key, nan) if col_key in series.index else nan`
for a series whose index is `cols`. -/
def seriesGet (cols : List String) (vals : List (Option Rat)) (key : String) : Option Rat :=
  match cols.indexOf? key with
  | some i => (vals[i]?).join
  | none => none

/-- Specification-side basis-point delta: `(current − reference) × 100`,
missing whenever either side is missing. -/
def bpChange (curr ref : Option Rat) : Option Rat :=
  match curr, ref with
  | some c, some r => some ((c - r) * 100)
  | _, _ => none

/-- Country order of the summary table (`ordered_codes` in the source). -/
def ordered_codes : List String := ["US", "KR", "DE", "GB", "JP", "CN"]

/-- Country code → Korean display name (`country_map` in the source). -/
def country_map : List (String × String) :=
  [("US", "미국"), ("KR", "한국"), ("DE", "독일"), ("GB", "영국"), ("JP", "일본"), ("CN", "중국")]

/-- Tenor label, `f"{tenor}년물"`. -/
def tenorLabel (tenor : Nat) : String := toString tenor ++ "년물"

/-- Column labels of the summary table, in the fixed order the source
assembles: per tenor the level column then the five lookback deltas. -/
def summaryLabels : List (String × String) :=
  ["2년물", "10년물"].flatMap (fun t =>
    (t, "금리 (%)") :: (["1D", "1W", "MTD", "YTD", "YoY"].map (fun l => (t, l))))

/-- Change-summary table: labelled columns and one labelled row per country. -/
structure Summary where
  colLabels : List (String × String)
  rows : List (String × List (Option Rat))
deriving DecidableEq

/-- Cells of one country's summary row: for each tenor in `[2, 10]` the
current level followed by the five basis-point deltas, exactly as the inner
loops of `build_change_summary` assemble them. -/
def instrRow (T : DFrame) (today : Int) (todayVals : List (Option Rat)) (code : String) :
    List (Option Rat) :=
  [2, 10].flatMap (fun tenor =>
    let key := code ++ "_" ++ toString tenor ++ "Y"
    let curr := seriesGet T.cols todayVals key
    curr :: (ref_infos today).map (fun ri =>
      match curr, seriesGet T.cols (get_ref_value T ri.2) key with
      | some c, some r => some ((c - r) * 100)
      | _, _ => none))

/-- Embedding of `build_change_summary` (modules/utils.py, also
`TreasuryCalc.build_change_summary`): reference date `target` (falling back
to the last index date), current row via `get_ref_value`, then one row per
country of `ordered_codes` in Korean naming.  The source builds the columns
in this same order and its final reordering is the identity. -/
def build_change_summary (T : DFrame) (target : Option Int) : Summary :=
  let today := match target with
    | some t => t
    | none => T.dates.max?.getD 0
  let todayVals := get_ref_value T today
  ⟨summaryLabels,
   ordered_codes.map (fun code =>
     (((country_map.find? (fun p => p.1 == code)).map Prod.snd).getD code,
      instrRow T today todayVals code))⟩

/-- Cell of a summary table at row label `cname` and column label `lbl`. -/
def summaryCell (S : Summary) (cname : String) (lbl : String × String) : Option (Option Rat) :=
  match S.rows.find? (fun r => r.1 == cname),
        S.colLabels.findIdx? (fun p => p.1 == lbl.1 && p.2 == lbl.2) with
  | some r, some i => r.2[i]?
  | _, _ => none

/-!
Standardization of the BondSummary export, embedding
`KofiaCalc.standardize_bond` and `KofiaCalc._bond_col_code`
(modules/calculator/kofia.py).  Raw cells either parse as a number, fail to
parse (pandas `to_numeric(errors="coerce")` turns them into NaN), or are
already missing.
-/

/-- Raw cell of an exported table before numeric coercion. -/
inductive RawCell where
  | num (v : Rat)
  | bad
  | blank
deriving DecidableEq

/-- Numeric coercion `pd.to_numeric(errors="coerce")`: a parseable cell keeps
its value, an unparseable or missing cell becomes missing — never raises. -/
def toNumeric : RawCell → Option Rat
  | .num v => some v
  | .bad => none
  | .blank => none

/-- Raw frame after the date column has been made the index: original column
headers and date-keyed rows of raw cells. -/
structure RawFrame where
  cols : List String
  rows : List (Int × List RawCell)
deriving DecidableEq

/-- Whitespace removal, `re.sub(r"\s+", "", s)` over the characters the
headers actually contain. -/
def stripWs (s : List Char) : List Char :=
  s.filter (fun c => !(c == ' ' || c == '\n' || c == '\t' || c == '\r'))

/-- Match of `pat` at the head of `s`. -/
def beginsWith : List Char → List Char → Bool
  | [], _ => true
  | _ :: _, [] => false
  | a :: as, b :: bs => a == b && beginsWith as bs

/-- Substring containment, Python's `pat in s`. -/
def containsSub (pat : List Char) : List Char → Bool
  | [] => beginsWith pat []
  | c :: rest => beginsWith pat (c :: rest) || containsSub pat rest

/-- Numeric value of a digit run. -/
def digitsToNat (ds : List Char) : Nat :=
  ds.foldl (fun a c => a * 10 + (c.toNat - '0'.toNat)) 0

/-- Leftmost match of the pattern `\((\d+)년\)`: an opening parenthesis, one
or more digits, then `년)`. -/
def findParenYear : List Char → Option Nat
  | [] => none
  | '(' :: rest =>
    let ds := rest.takeWhile Char.isDigit
    if ds.isEmpty then findParenYear rest
    else
      match rest.drop ds.length with
      | '년' :: ')' :: _ => some (digitsToNat ds)
      | _ => findParenYear rest
  | _ :: rest => findParenYear rest

/-- Match of `국고채[권]?\((\d+)년\)` anchored at the current position. -/
def ktbAt (s : List Char) : Option Nat :=
  match s with
  | '국' :: '고' :: '채' :: rest =>
    let rest2 := match rest with
      | '권' :: r => r
      | _ => rest
    match rest2 with
    | '(' :: r =>
      let ds := r.takeWhile Char.isDigit
      if ds.isEmpty then none
      else
        match r.drop ds.length with
        | '년' :: ')' :: _ => some (digitsToNat ds)
        | _ => none
    | _ => none
  | _ => none

/-- Leftmost match of `국고채[권]?\((\d+)년\)` (the treasury-bond pattern). -/
def findKTB : List Char → Option Nat
  | [] => none
  | c :: rest =>
    match ktbAt (c :: rest) with
    | some n => some n
    | none => findKTB rest

/-- Embedding of `KofiaCalc._bond_col_code`: strip whitespace, then try the
source's patterns in order; `none` marks a column to be dropped. -/
def bondColCode (s : String) : Option String :=
  let cs := stripWs s.toList
  match findKTB cs with
  | some n => some ("KTB_" ++ toString n ++ "Y")
  | none =>
    if containsSub "국민주택".toList cs then
      (findParenYear cs).map (fun n => "NHB_" ++ toString n ++ "Y")
    else if containsSub "통안".toList cs then
      (if containsSub "91".toList cs then some "MSB_91D"
       else (findParenYear cs).map (fun n => "MSB_" ++ toString n ++ "Y"))
    else if containsSub "한전".toList cs then
      (findParenYear cs).map (fun n => "KEPCO_" ++ toString n ++ "Y")
    else if containsSub "산금".toList cs then
      (findParenYear cs).map (fun n => "KDB_" ++ toString n ++ "Y")
    else if containsSub "회사채".toList cs then
      (if containsSub "AA".toList cs then some "CORP_AA_3Y"
       else if containsSub "BBB".toList cs then some "CORP_BBB_3Y"
       else none)
    else if containsSub "CD".toList cs then some "CD_91D"
    else if containsSub "CP".toList cs then some "CP_91D"
    else none

/-- Catalog precedence of canonical codes (`prefix_order` in the source). -/
def codePrecedence : List String := ["KTB", "NHB", "MSB", "KEPCO", "KDB", "CORP", "CD", "CP"]

/-- First digit run of a string, 0 when none (`re.search(r"\d+", c)`). -/
def firstNum : List Char → Nat
  | [] => 0
  | c :: rest =>
    if c.isDigit then digitsToNat ((c :: rest).takeWhile Char.isDigit)
    else firstNum rest

/-- Sort key `_col_sort_key` of `standardize_bond`: position of the first
matching catalog code the column starts with, then the first number in the
name; unmatched columns sort last. -/
def colSortKey (c : String) : Nat × Nat :=
  match (List.range codePrecedence.length).find?
      (fun i => beginsWith (codePrecedence.getD i "").toList c.toList) with
  | some i => (i, firstNum c.toList)
  | none => (codePrecedence.length, 0)

/-- Lexicographic order on sort keys, as Python compares key tuples. -/
def keyLe (a b : Nat × Nat) : Prop :=
  a.1 < b.1 ∨ (a.1 = b.1 ∧ a.2 ≤ b.2)

instance : DecidableRel keyLe := fun a b =>
  inferInstanceAs (Decidable (a.1 < b.1 ∨ (a.1 = b.1 ∧ a.2 ≤ b.2)))

/-- Column order relation used by `sorted(df.columns, key=_col_sort_key)`. -/
def codeOrder (a b : String) : Prop := keyLe (colSortKey a) (colSortKey b)

instance : DecidableRel codeOrder := fun a b =>
  inferInstanceAs (Decidable (keyLe (colSortKey a) (colSortKey b)))

/-- Error message raised when no column header is recognized. -/
def noRecognizedColumnsMsg : String :=
  "BondSummary 컬럼에서 채권명을 인식할 수 없습니다."

/-- Embedding of `KofiaCalc.standardize_bond`, starting after the date column
has been made the index: sort rows by date, map headers through
`_bond_col_code`, raise (return `.error`) when nothing is recognized,
otherwise keep the recognized columns, rename them to canonical codes, coerce
cells to numeric, order columns by catalog precedence (a stable sort, like
Python's `sorted`) and apply `fill_calendar`. -/
def standardize_bond (R : RawFrame) : Except String DFrame :=
  let rowsSorted := List.insertionSort (fun a b : Int × List RawCell => a.1 ≤ b.1) R.rows
  let kept := R.cols.filterMap (fun c => (bondColCode c).map (fun code => (c, code)))
  if kept.isEmpty then .error noRecognizedColumnsMsg
  else
    let sortedCodes := List.insertionSort codeOrder (kept.map Prod.snd)
    let colOf : String → Option Nat := fun code =>
      (kept.find? (fun p => p.2 == code)).bind (fun p => R.cols.indexOf? p.1)
    let pre : DFrame :=
      ⟨sortedCodes,
       rowsSorted.map (fun r =>
         (r.1, sortedCodes.map (fun code =>
            (colOf code).bind (fun i => (r.2[i]?).bind (fun cell => toNumeric cell)))))⟩
    .ok (fill_calendar pre)

/-!
Batched collection, embedding `BondSummary.collect`
(modules/collector/kofia.py).  Per batch the run either raises inside a UI
step (a Selenium timeout — the exception escapes the batch loop to the outer
handler, which returns failure), finds no downloaded file (skipped with a
warning), downloads a file that later fails to parse (dropped at the merge
step), or downloads a file that parses to a table carrying the batch's
columns.
-/

/-- Outcome of one batch of `BondSummary.collect`. -/
inductive BatchOutcome where
  | uiTimeout
  | downloadMissing
  | parseFail
  | parsed (cols : List String)
deriving DecidableEq

/-- Downloaded batch file as seen at the merge step. -/
inductive BatchFile where
  | bad
  | good (cols : List String)
deriving DecidableEq

/-- Columns of a parsed batch outcome. -/
def parsedCols : BatchOutcome → Option (List String)
  | .parsed cs => some cs
  | _ => none

/-- Columns of a parseable batch file. -/
def goodCols : BatchFile → Option (List String)
  | .good cs => some cs
  | _ => none

/-- Batch loop of `BondSummary.collect`: `none` models the exception escaping
to the outer handler (the remaining batches never run and already-downloaded
files are abandoned); otherwise the list of downloaded files. -/
def runBatches : List BatchOutcome → Option (List BatchFile)
  | [] => some []
  | .uiTimeout :: _ => none
  | .downloadMissing :: rest => runBatches rest
  | .parseFail :: rest => (runBatches rest).map (fun fs => .bad :: fs)
  | .parsed cs :: rest => (runBatches rest).map (fun fs => .good cs :: fs)

/-- Column names produced by `left.merge(right, on="Date", how="outer")`:
non-key names colliding across the two frames get the pandas suffixes
`_x` (left) and `_y` (right). -/
def mergeColNames (a b : List String) : List String :=
  a.map (fun c => if b.contains c then c ++ "_x" else c)
    ++ b.map (fun c => if a.contains c then c ++ "_y" else c)

/-- Row of a frame aligned to a join result at date `d`: the frame's own row
when the date is present in its index, an all-missing stretch otherwise. -/
def rowOrNone (T : DFrame) (d : Int) : List (Option Rat) :=
  match T.rows.find? (fun r => r.1 == d) with
  | some r => r.2
  | none => T.cols.map (fun _ => none)

/-- Embedding of one `left.merge(right, on="Date", how="outer")` step of the
batch merge in `BondSummary.collect`: the key set is the sorted union of the
two date-key columns, the non-key columns keep their order with the pandas
default suffixes `_x` (left) and `_y` (right) applied to colliding names,
and each side's cells come from that side's own row — missing at dates the
side lacks.  No reconciliation across duplicate names takes place. -/
def merge_on_date (L R : DFrame) : DFrame :=
  ⟨L.cols.map (fun c => if R.cols.contains c then c ++ "_x" else c)
    ++ R.cols.map (fun c => if L.cols.contains c then c ++ "_y" else c),
   (sortedUnion L.dates R.dates).map (fun d => (d, rowOrNone L d ++ rowOrNone R d))⟩

/-- Embedding of `BondSummary.collect` at the batch/merge level, returning
the merged column set on success (`True` plus a written merged file) and
`none` on failure (`False`): an escaped exception fails the run; with no
exception the run fails exactly when no downloaded file parses, and
otherwise folds the parsed tables with the outer merge. -/
def collectBond (outs : List BatchOutcome) : Option (List String) :=
  match runBatches outs with
  | none => none
  | some files =>
    if files.isEmpty then none
    else
      match files.filterMap goodCols with
      | [] => none
      | d :: ds => some (ds.foldl mergeColNames d)

/-!
UI-event trace of `BondSummary.collect`, embedding the Selenium driver usage:
one `webdriver.Chrome(...)` launch, one navigation
(`_navigate_to_period_tab`), one date-range entry, the initial unchecking of
the portal's default selections, then per batch check → search → export →
uncheck.  `_set_checkbox` sets an absolute state (it clicks only when the
current state differs).
-/

/-- Primitive UI events of the collector. -/
inductive UIEvent where
  | launch
  | navigate
  | setDates
  | setCheck (cid : String) (val : Bool)
  | searchClick
  | exportClick
deriving DecidableEq

/-- Checkbox ids unchecked once up front (`_BOND_SUMMARY_INIT_UNCHECK`):
the portal's default-checked series. -/
def bondInitUncheck : List String :=
  ["chkAnnItm_input_16", "chkAnnItm_input_14", "chkAnnItm_input_10",
   "chkAnnItm_input_11", "chkAnnItm_input_2"]

/-- Fixed batch catalog `_BOND_SUMMARY_BATCHES` (names and checkbox ids). -/
def bondBatches : List (String × List String) :=
  [("A", ["chkAnnItm_input_0", "chkAnnItm_input_1", "chkAnnItm_input_2",
          "chkAnnItm_input_3", "chkAnnItm_input_4", "chkAnnItm_input_5"]),
   ("B", ["chkAnnItm_input_6", "chkAnnItm_input_7", "chkAnnItm_input_8",
          "chkAnnItm_input_9", "chkAnnItm_input_10", "chkAnnItm_input_11"]),
   ("C", ["chkAnnItm_input_12", "chkAnnItm_input_13", "chkAnnItm_input_14",
          "chkAnnItm_input_15", "chkAnnItm_input_16", "chkAnnItm_input_17"])]

/-- Event trace of `BondSummary.collect` over a batch catalog. -/
def collectTrace (batches : List (String × List String)) : List UIEvent :=
  [UIEvent.launch, UIEvent.navigate, UIEvent.setDates]
    ++ bondInitUncheck.map (fun c => UIEvent.setCheck c false)
    ++ batches.flatMap (fun b =>
        b.2.map (fun c => UIEvent.setCheck c true)
          ++ [UIEvent.searchClick, UIEvent.exportClick]
          ++ b.2.map (fun c => UIEvent.setCheck c false))

/-- Checkbox-state transition of one event (absolute set/unset semantics of
`_set_checkbox`). -/
def applyEvent (st : List String) : UIEvent → List String
  | .setCheck c true => if st.contains c then st else st ++ [c]
  | .setCheck c false => st.filter (fun x => !(x == c))
  | _ => st

/-- Checked-checkbox states observed at each export click, starting from the
given default-checked set. -/
def exportStates : List UIEvent → List String → List (List String)
  | [], _ => []
  | .exportClick :: rest, st => st :: exportStates rest st
  | e :: rest, st => exportStates rest (applyEvent st e)

/-!
List and scan lemmas shared by the claim proofs.
-/

theorem foldl_min_of_le (t : List Int) (a : Int) (h : ∀ x ∈ t, a ≤ x) :
    t.foldl min a = a := by
  induction t with
  | nil => rfl
  | cons b t ih =>
    have hab : a ≤ b := h b (by simp)
    simp only [List.foldl_cons, min_eq_left hab]
    exact ih (fun x hx => h x (by simp [hx]))

theorem foldl_max_sorted (t : List Int) (a : Int) (h : List.Pairwise (· ≤ ·) (a :: t)) :
    some (t.foldl max a) = (a :: t).getLast? := by
  induction t generalizing a with
  | nil => rfl
  | cons b t ih =>
    have hab : a ≤ b := (List.pairwise_cons.mp h).1 b (by simp)
    have ht : List.Pairwise (· ≤ ·) (b :: t) := (List.pairwise_cons.mp h).2
    simp only [List.foldl_cons, max_eq_right hab]
    rw [ih b ht]
    rfl

theorem min?_eq_head_of_sorted (l : List Int) (h : List.Pairwise (· ≤ ·) l) :
    l.min? = l.head? := by
  cases l with
  | nil => rfl
  | cons a t =>
    have : t.foldl min a = a :=
      foldl_min_of_le t a (fun x hx => List.rel_of_pairwise_cons h hx)
    simp [List.min?, this]

theorem max?_eq_getLast_of_sorted (l : List Int) (h : List.Pairwise (· ≤ ·) l) :
    l.max? = l.getLast? := by
  cases l with
  | nil => rfl
  | cons a t =>
    have := foldl_max_sorted t a h
    simpa [List.max?] using this

theorem sorted_head_le (l : List Int) (h : List.Pairwise (· ≤ ·) l) (a x : Int)
    (ha : l.head? = some a) (hx : x ∈ l) : a ≤ x := by
  cases l with
  | nil => simp at hx
  | cons b t =>
    have hb : b = a := by simpa using ha
    subst hb
    cases hx with
    | head => exact le_refl _
    | tail _ hx => exact List.rel_of_pairwise_cons h hx

theorem sorted_le_getLast (l : List Int) (h : List.Pairwise (· ≤ ·) l) (a x : Int)
    (ha : l.getLast? = some a) (hx : x ∈ l) : x ≤ a := by
  induction l with
  | nil => simp at hx
  | cons b t ih =>
    cases t with
    | nil =>
      simp at hx ha
      omega
    | cons c t' =>
      rw [List.getLast?_cons_cons] at ha
      cases hx with
      | head =>
        have hmem : a ∈ c :: t' := by
          rcases List.getLast?_eq_some_iff.mp ha with ⟨ys, hys⟩
          rw [hys]
          simp
        exact List.rel_of_pairwise_cons h hmem
      | tail _ hx => exact ih (List.pairwise_cons.mp h).2 ha hx

theorem findSome?_ext {α β : Type} (p q : α → Option β) (l : List α)
    (h : ∀ a ∈ l, p a = q a) : l.findSome? p = l.findSome? q := by
  induction l with
  | nil => rfl
  | cons a t ih =>
    rw [List.findSome?_cons, List.findSome?_cons, h a (by simp)]
    cases q a with
    | some v => rfl
    | none => exact ih (fun x hx => h x (by simp [hx]))

theorem lookback_eq_none_iff (T : DFrame) (c : Nat) :
    ∀ (n : Nat) (d : Int), lookback T c d n = none ↔ ∀ j < n, origCell T (d - j) c = none := by
  intro n
  induction n with
  | zero => intro d; simp [lookback]
  | succ n ih =>
    intro d
    rw [lookback]
    cases h : origCell T d c with
    | some v =>
      simp only [reduceCtorEq, false_iff, not_forall]
      refine ⟨0, by omega, ?_⟩
      have h0 : d - ((0 : Nat) : Int) = d := by omega
      rw [h0, h]
      simp
    | none =>
      rw [ih (d - 1)]
      constructor
      · intro hall j hj
        cases j with
        | zero => simpa using h
        | succ j =>
          have := hall j (by omega)
          have harith : d - 1 - (j : Int) = d - ((j : Nat) + 1 : Nat) := by
            push_cast
            ring
          rwa [harith] at this
      · intro hall j hj
        have := hall (j + 1) (by omega)
        have harith : d - ((j : Nat) + 1 : Nat) = d - 1 - (j : Int) := by
          push_cast
          ring
        rwa [harith] at this

theorem lookback_eq_some_head (T : DFrame) (c : Nat) (d : Int) (n : Nat) (v : Rat)
    (h : origCell T d c = some v) : lookback T c d (n + 1) = some v := by
  rw [lookback, h]

theorem ffillCell_of_orig_some (T : DFrame) (lo : Int) (c : Nat) (d : Int) (v : Rat)
    (hlod : lo ≤ d) (h : origCell T d c = some v) : ffillCell T lo c d = some v := by
  unfold ffillCell
  have : (d + 1 - lo).toNat = (d - lo).toNat + 1 := by omega
  rw [this]
  exact lookback_eq_some_head T c d _ v h

theorem ffillCell_none_mono (T : DFrame) (lo : Int) (c : Nat) (x d : Int)
    (hx : lo ≤ x) (hxd : x ≤ d) (h : ffillCell T lo c d = none) : ffillCell T lo c x = none := by
  unfold ffillCell at h ⊢
  rw [lookback_eq_none_iff] at h ⊢
  intro j hj
  have h1 : (x - j : Int) = d - ((d - x + j).toNat : Nat) := by omega
  rw [h1]
  exact h _ (by omega)

theorem fillRows_map_fst (cellf : Int → Nat → Option Rat) (w : Nat) :
    ∀ (n : Nat) (d : Int), (fillRows cellf w d n).map Prod.fst = intRange d n := by
  intro n
  induction n with
  | zero => intro d; rfl
  | succ n ih => intro d; simp [fillRows, intRange, ih]

theorem fillRows_row_len (cellf : Int → Nat → Option Rat) (w : Nat) :
    ∀ (n : Nat) (d : Int) (r : Int × List (Option Rat)),
      r ∈ fillRows cellf w d n → r.2.length = w := by
  intro n
  induction n with
  | zero => intro d r hr; simp [fillRows] at hr
  | succ n ih =>
    intro d r hr
    rw [fillRows] at hr
    rcases List.mem_cons.mp hr with h | h
    · subst h; simp
    · exact ih (d + 1) r h

theorem fillRows_find?_in (cellf : Int → Nat → Option Rat) (w : Nat) :
    ∀ (n : Nat) (d x : Int), d ≤ x → x < d + n →
      (fillRows cellf w d n).find? (fun r => r.1 == x) =
        some (x, (List.range w).map (cellf x)) := by
  intro n
  induction n with
  | zero => intro d x h1 h2; omega
  | succ n ih =>
    intro d x h1 h2
    rw [fillRows, List.find?_cons]
    by_cases hdx : d = x
    · subst hdx
      simp
    · have hfalse : ((d, (List.range w).map (cellf d)).1 == x) = false := by
        simpa using hdx
      rw [hfalse]
      exact ih (d + 1) x (by omega) (by omega)

theorem fillRows_find?_out (cellf : Int → Nat → Option Rat) (w : Nat) :
    ∀ (n : Nat) (d x : Int), (x < d ∨ d + n ≤ x) →
      (fillRows cellf w d n).find? (fun r => r.1 == x) = none := by
  intro n
  induction n with
  | zero => intro d x _; rfl
  | succ n ih =>
    intro d x h
    rw [fillRows, List.find?_cons]
    have hdx : ¬ d = x := by omega
    have hfalse : ((d, (List.range w).map (cellf d)).1 == x) = false := by
      simpa using hdx
    rw [hfalse]
    exact ih (d + 1) x (by omega)

theorem intRange_mem (n : Nat) : ∀ (d x : Int), x ∈ intRange d n ↔ d ≤ x ∧ x < d + n := by
  induction n with
  | zero => intro d x; simp [intRange]
  | succ n ih =>
    intro d x
    rw [intRange, List.mem_cons, ih (d + 1)]
    omega

theorem intRange_chain (n : Nat) : ∀ (d : Int), List.Chain' (· < ·) (intRange d n) := by
  induction n with
  | zero => intro d; simp [intRange]
  | succ n ih =>
    intro d
    rw [intRange]
    apply List.chain'_cons'.mpr
    refine ⟨?_, ih (d + 1)⟩
    intro y hy
    cases n with
    | zero => simp [intRange] at hy
    | succ n =>
      rw [intRange] at hy
      simp at hy
      omega

theorem intRange_getLast? (n : Nat) : ∀ (d : Int), 0 < n →
    (intRange d n).getLast? = some (d + n - 1) := by
  induction n with
  | zero => intro d h; omega
  | succ n ih =>
    intro d _
    cases n with
    | zero => simp [intRange]
    | succ m =>
      have h2 := ih (d + 1) (by omega)
      have h3 : intRange d (m + 1 + 1) = d :: (d + 1) :: intRange (d + 1 + 1) m := rfl
      rw [h3, List.getLast?_cons_cons]
      have h4 : intRange (d + 1) (m + 1) = (d + 1) :: intRange (d + 1 + 1) m := rfl
      rw [h4] at h2
      rw [h2]
      congr 1
      omega

theorem range_findSome?_succ (f : Int → Option Rat) (d : Int) (n : Nat) :
    (List.range (n + 1)).findSome? (fun j : Nat => f (d - (j : Int))) =
      match f d with
      | some v => some v
      | none => (List.range n).findSome? (fun j : Nat => f (d - 1 - (j : Int))) := by
  rw [List.range_succ_eq_map, List.findSome?_cons]
  have h0 : d - ((0 : Nat) : Int) = d := by omega
  rw [h0]
  cases f d with
  | some v => rfl
  | none =>
    rw [List.findSome?_map]
    apply findSome?_ext
    intro a _
    simp only [Function.comp]
    congr 1
    push_cast
    ring

theorem sparse_scan_eq (f : Int → Option Rat) :
    ∀ (n : Nat) (d lo : Int) (v : List Int), n = (d + 1 - lo).toNat →
      List.Pairwise (fun a b => b < a) v →
      (∀ x ∈ v, lo ≤ x ∧ x ≤ d) →
      (∀ x, lo ≤ x → x ≤ d → f x ≠ none → x ∈ v) →
      v.findSome? f = (List.range n).findSome? (fun j : Nat => f (d - (j : Int))) := by
  intro n
  induction n with
  | zero =>
    intro d lo v hn hp hmem hcov
    have hv : v = [] := by
      cases v with
      | nil => rfl
      | cons a t =>
        have := hmem a (by simp)
        omega
    subst hv
    rfl
  | succ n ih =>
    intro d lo v hn hp hmem hcov
    have hlod : lo ≤ d := by omega
    rw [range_findSome?_succ]
    cases hf : f d with
    | some v0 =>
      have hd : d ∈ v := hcov d hlod (le_refl d) (by simp [hf])
      cases v with
      | nil => simp at hd
      | cons a t =>
        have hav : a = d := by
          rcases List.mem_cons.mp hd with h | h
          · omega
          · have hlt := List.rel_of_pairwise_cons hp h
            have := hmem a (by simp)
            omega
        subst hav
        rw [List.findSome?_cons, hf]
    | none =>
      cases v with
      | nil =>
        rw [List.findSome?_nil]
        refine (ih (d - 1) lo [] (by omega) (by simp) (by simp) ?_).symm ▸ rfl
        intro x hx1 hx2 hfx
        exact hcov x hx1 (by omega) hfx
      | cons a t =>
        by_cases hav : a = d
        · subst hav
          rw [List.findSome?_cons, hf]
          apply ih (a - 1) lo t (by omega) (List.pairwise_cons.mp hp).2
          · intro x hx
            have h1 := hmem x (by simp [hx])
            have h2 := List.rel_of_pairwise_cons hp hx
            omega
          · intro x hx1 hx2 hfx
            have := hcov x hx1 (by omega) hfx
            rcases List.mem_cons.mp this with h | h
            · omega
            · exact h
        · have hdnv : d ∉ a :: t := by
            intro hd
            rcases List.mem_cons.mp hd with h | h
            · omega
            · have hlt := List.rel_of_pairwise_cons hp h
              have := hmem a (by simp)
              omega
          apply ih (d - 1) lo (a :: t) (by omega) hp
          · intro x hx
            have h1 := hmem x hx
            have h2 : x ≠ d := by
              intro he
              subst he
              exact hdnv hx
            omega
          · intro x hx1 hx2 hfx
            exact hcov x hx1 (by omega) hfx

theorem lookback_eq_range_scan (T : DFrame) (c : Nat) :
    ∀ (n : Nat) (d : Int),
      lookback T c d n = (List.range n).findSome? (fun j : Nat => origCell T (d - (j : Int)) c) := by
  intro n
  induction n with
  | zero => intro d; rfl
  | succ n ih =>
    intro d
    rw [lookback]
    have h := range_findSome?_succ (fun x => origCell T x c) d n
    rw [h]
    cases origCell T d c with
    | some v => rfl
    | none => exact ih (d - 1)

theorem rows_pairwise_of_sorted (T : DFrame) (hs : List.Pairwise (· < ·) T.dates) :
    List.Pairwise (fun a b : Int × List (Option Rat) => a.1 < b.1) T.rows :=
  List.pairwise_map.mp hs

theorem dates_nodup_of_sorted (T : DFrame) (hs : List.Pairwise (· < ·) T.dates) :
    T.dates.Nodup :=
  hs.imp (fun h => ne_of_lt h)

theorem find?_key_of_mem :
    ∀ (l : List (Int × List (Option Rat))),
      List.Pairwise (fun a b : Int × List (Option Rat) => a.1 < b.1) l →
      ∀ r ∈ l, l.find? (fun x => x.1 == r.1) = some r := by
  intro l
  induction l with
  | nil => intro _ r hr; simp at hr
  | cons a t ih =>
    intro hpr r hr
    rcases List.mem_cons.mp hr with h | h
    · subst h
      exact List.find?_cons_of_pos _ (by simp)
    · have hne : a.1 ≠ r.1 := by
        have := List.rel_of_pairwise_cons hpr h
        omega
      rw [List.find?_cons]
      have hfalse : (a.1 == r.1) = false := by simpa using hne
      rw [hfalse]
      exact ih (List.pairwise_cons.mp hpr).2 r h

theorem find?_row_of_mem (T : DFrame) (hs : List.Pairwise (· < ·) T.dates)
    (r : Int × List (Option Rat)) (hr : r ∈ T.rows) :
    T.rows.find? (fun x => x.1 == r.1) = some r :=
  find?_key_of_mem T.rows (rows_pairwise_of_sorted T hs) r hr

theorem origCell_of_mem (T : DFrame) (hs : List.Pairwise (· < ·) T.dates)
    (r : Int × List (Option Rat)) (hr : r ∈ T.rows) (c : Nat) :
    origCell T r.1 c = (r.2[c]?).join := by
  unfold origCell
  rw [find?_row_of_mem T hs r hr]

theorem origCell_ne_none_mem (T : DFrame) (x : Int) (c : Nat)
    (h : origCell T x c ≠ none) : x ∈ T.dates := by
  unfold origCell at h
  cases hf : T.rows.find? (fun r => r.1 == x) with
  | none => rw [hf] at h; simp at h
  | some r =>
    have hmem := List.mem_of_find?_eq_some hf
    have hpred := List.find?_some hf
    have : r.1 = x := by simpa using hpred
    subst this
    exact List.mem_map_of_mem Prod.fst hmem

theorem lastObs_eq_range_scan (T : DFrame) (c : Nat) (hs : List.Pairwise (· < ·) T.dates)
    (lo d : Int) (hlo : ∀ x ∈ T.dates, lo ≤ x) :
    lastObs T c d =
      (List.range (d + 1 - lo).toNat).findSome? (fun j : Nat => origCell T (d - (j : Int)) c) := by
  unfold lastObs
  have hstep : ((T.rows.filter (fun r => decide (r.1 ≤ d))).reverse).findSome?
      (fun r => (r.2[c]?).join) =
      (((T.rows.filter (fun r => decide (r.1 ≤ d))).reverse).map Prod.fst).findSome?
        (fun x => origCell T x c) := by
    rw [List.findSome?_map]
    apply findSome?_ext
    intro a ha
    have hmem : a ∈ T.rows := by
      have h1 := List.mem_reverse.mp ha
      exact List.mem_of_mem_filter h1
    simp only [Function.comp]
    exact (origCell_of_mem T hs a hmem c).symm
  rw [hstep]
  apply sparse_scan_eq (fun x => origCell T x c) _ d lo _ rfl
  · rw [List.map_reverse]
    rw [List.pairwise_reverse]
    have hp : List.Pairwise (fun a b : Int × List (Option Rat) => a.1 < b.1)
        (T.rows.filter (fun r => decide (r.1 ≤ d))) :=
      List.Pairwise.sublist (List.filter_sublist T.rows) (rows_pairwise_of_sorted T hs)
    exact List.pairwise_map.mpr hp
  · intro x hx
    rw [List.map_reverse, List.mem_reverse] at hx
    rcases List.mem_map.mp hx with ⟨r, hr, hfst⟩
    have h1 := List.of_mem_filter hr
    have h2 : r ∈ T.rows := List.mem_of_mem_filter hr
    subst hfst
    refine ⟨hlo r.1 (List.mem_map_of_mem Prod.fst h2), by simpa using h1⟩
  · intro x hx1 hx2 hfx
    have hmemd : x ∈ T.dates := origCell_ne_none_mem T x c hfx
    rcases List.mem_map.mp hmemd with ⟨r, hr, hfst⟩
    rw [List.map_reverse, List.mem_reverse]
    subst hfst
    exact List.mem_map_of_mem Prod.fst (List.mem_filter.mpr ⟨hr, by simpa using hx2⟩)

theorem ffillCell_eq_lastObs (T : DFrame) (c : Nat) (hs : List.Pairwise (· < ·) T.dates)
    (lo d : Int) (hlo : ∀ x ∈ T.dates, lo ≤ x) :
    ffillCell T lo c d = lastObs T c d := by
  unfold ffillCell
  rw [lookback_eq_range_scan, lastObs_eq_range_scan T c hs lo d hlo]

theorem dates_pairwise_le (T : DFrame) (hs : List.Pairwise (· < ·) T.dates) :
    List.Pairwise (· ≤ ·) T.dates :=
  hs.imp (fun h => le_of_lt h)

theorem WF_bounds (T : DFrame) (h : T.WF) :
    ∃ lo hi, T.dates.min? = some lo ∧ T.dates.max? = some hi ∧ lo ≤ hi ∧
      ∀ x ∈ T.dates, lo ≤ x ∧ x ≤ hi := by
  obtain ⟨hne, hso, _⟩ := h
  have hd : T.dates ≠ [] := by
    unfold DFrame.dates
    simpa using hne
  have hple := dates_pairwise_le T hso
  obtain ⟨a, t, he⟩ : ∃ a t, T.dates = a :: t := by
    cases hc : T.dates with
    | nil => exact absurd hc hd
    | cons a t => exact ⟨a, t, rfl⟩
  have hhead : T.dates.head? = some a := by rw [he]; rfl
  have hmin : T.dates.min? = some a := by
    rw [min?_eq_head_of_sorted _ hple, hhead]
  have hlast : ∃ b, T.dates.getLast? = some b := by
    rw [he]
    cases t with
    | nil => exact ⟨a, rfl⟩
    | cons c t' =>
      refine ⟨(c :: t').getLast (by simp), ?_⟩
      rw [List.getLast?_cons_cons]
      exact List.getLast?_eq_getLast _ (by simp)
  obtain ⟨b, hb⟩ := hlast
  refine ⟨a, b, hmin, ?_, ?_, ?_⟩
  · rw [max?_eq_getLast_of_sorted _ hple, hb]
  · exact sorted_le_getLast _ hple b a hb (by rw [he]; simp)
  · intro x hx
    exact ⟨sorted_head_le _ hple a x hhead hx,
           sorted_le_getLast _ hple b x hb hx⟩

theorem fill_calendar_eq (T : DFrame) (lo hi : Int)
    (hlo : T.dates.min? = some lo) (hhi : T.dates.max? = some hi) :
    fill_calendar T =
      ⟨T.cols, fillRows (fun d c => ffillCell T lo c d) T.cols.length lo (hi + 1 - lo).toNat⟩ := by
  unfold fill_calendar
  rw [hlo, hhi]

theorem fill_calendar_cols (T : DFrame) : (fill_calendar T).cols = T.cols := by
  unfold fill_calendar
  cases T.dates.min? with
  | none => rfl
  | some lo =>
    cases T.dates.max? with
    | none => rfl
    | some hi => rfl

theorem fillRows_length (cellf : Int → Nat → Option Rat) (w : Nat) :
    ∀ (n : Nat) (d : Int), (fillRows cellf w d n).length = n := by
  intro n
  induction n with
  | zero => intro d; rfl
  | succ n ih => intro d; simp [fillRows, ih]

theorem origCell_fill (T : DFrame) (lo hi : Int)
    (hlo : T.dates.min? = some lo) (hhi : T.dates.max? = some hi) (x : Int) (c : Nat)
    (hx1 : lo ≤ x) (hx2 : x ≤ hi) (hc : c < T.cols.length) :
    origCell (fill_calendar T) x c = ffillCell T lo c x := by
  rw [fill_calendar_eq T lo hi hlo hhi]
  unfold origCell
  have hfind := fillRows_find?_in (fun d c => ffillCell T lo c d) T.cols.length
    (hi + 1 - lo).toNat lo x hx1 (by omega)
  simp only at hfind
  rw [hfind]
  show ((List.map (fun c => ffillCell T lo c x) (List.range T.cols.length))[c]?).join =
    ffillCell T lo c x
  rw [List.getElem?_map, List.getElem?_range hc]
  rfl

theorem origCell_fill_out (T : DFrame) (lo hi : Int)
    (hlo : T.dates.min? = some lo) (hhi : T.dates.max? = some hi) (x : Int) (c : Nat)
    (hx : x < lo ∨ hi < x) :
    origCell (fill_calendar T) x c = none := by
  rw [fill_calendar_eq T lo hi hlo hhi]
  unfold origCell
  have hfind := fillRows_find?_out (fun d c => ffillCell T lo c d) T.cols.length
    (hi + 1 - lo).toNat lo x (by omega)
  simp only at hfind
  rw [hfind]

theorem fill_calendar_dates (T : DFrame) (lo hi : Int)
    (hlo : T.dates.min? = some lo) (hhi : T.dates.max? = some hi) :
    (fill_calendar T).dates = intRange lo (hi + 1 - lo).toNat := by
  rw [fill_calendar_eq T lo hi hlo hhi]
  unfold DFrame.dates
  exact fillRows_map_fst _ _ _ _

theorem fill_calendar_WF (T : DFrame) (h : T.WF) : (fill_calendar T).WF := by
  obtain ⟨lo, hi, hlo, hhi, hlohi, _⟩ := WF_bounds T h
  have hn : (hi + 1 - lo).toNat = (hi - lo).toNat + 1 := by omega
  refine ⟨?_, ?_, ?_⟩
  · rw [fill_calendar_eq T lo hi hlo hhi]
    simp only
    intro hcon
    have := fillRows_length (fun d c => ffillCell T lo c d) T.cols.length (hi + 1 - lo).toNat lo
    rw [hcon] at this
    simp at this
    omega
  · rw [fill_calendar_dates T lo hi hlo hhi]
    exact List.chain'_iff_pairwise.mp (intRange_chain _ _)
  · rw [fill_calendar_eq T lo hi hlo hhi]
    intro r hr
    simpa using fillRows_row_len _ _ _ _ r hr

theorem ffill_congr_on_fill (T : DFrame) (h : T.WF) (lo hi : Int)
    (hlo : T.dates.min? = some lo) (hhi : T.dates.max? = some hi) (x : Int) (c : Nat)
    (hx1 : lo ≤ x) (hx2 : x ≤ hi) (hc : c < T.cols.length) :
    ffillCell (fill_calendar T) lo c x = ffillCell T lo c x := by
  cases hcase : ffillCell T lo c x with
  | some v =>
    have horig : origCell (fill_calendar T) x c = some v := by
      rw [origCell_fill T lo hi hlo hhi x c hx1 hx2 hc, hcase]
    exact ffillCell_of_orig_some _ lo c x v hx1 horig
  | none =>
    unfold ffillCell
    rw [lookback_eq_none_iff]
    intro j hj
    have hxj1 : lo ≤ x - j := by omega
    have hxj2 : x - (j : Int) ≤ hi := by omega
    rw [origCell_fill T lo hi hlo hhi (x - j) c hxj1 hxj2 hc]
    exact ffillCell_none_mono T lo c (x - j) x hxj1 (by omega) hcase

theorem intRange_head? (n : Nat) (d : Int) (h : 0 < n) : (intRange d n).head? = some d := by
  cases n with
  | zero => omega
  | succ n => rfl

theorem fillRows_congr (f g : Int → Nat → Option Rat) (w : Nat) :
    ∀ (n : Nat) (d : Int),
      (∀ x c, d ≤ x → x < d + n → c < w → f x c = g x c) →
      fillRows f w d n = fillRows g w d n := by
  intro n
  induction n with
  | zero => intro d _; rfl
  | succ n ih =>
    intro d hfg
    rw [fillRows, fillRows]
    congr 1
    · congr 1
      apply List.map_congr_left
      intro c hc
      exact hfg d c (le_refl d) (by omega) (List.mem_range.mp hc)
    · exact ih (d + 1) (fun x c hx1 hx2 hc => hfg x c (by omega) (by omega) hc)

/-- C5: for every well-formed date-indexed table, `fill_calendar` is
idempotent — reindexing an already calendar-complete, forward-filled table
to its own (unchanged) min/max range and forward filling again changes
nothing: `fill_calendar (fill_calendar T) = fill_calendar T`. -/
theorem c5_fill_calendar_idempotent (T : DFrame) (h : T.WF) :
    fill_calendar (fill_calendar T) = fill_calendar T := by
  obtain ⟨lo, hi, hlo, hhi, hlohi, hbnd⟩ := WF_bounds T h
  have hdates : (fill_calendar T).dates = intRange lo (hi + 1 - lo).toNat :=
    fill_calendar_dates T lo hi hlo hhi
  have hple : List.Pairwise (· ≤ ·) (intRange lo (hi + 1 - lo).toNat) :=
    (List.chain'_iff_pairwise.mp (intRange_chain _ _)).imp (fun hx => le_of_lt hx)
  have hFlo : (fill_calendar T).dates.min? = some lo := by
    rw [hdates, min?_eq_head_of_sorted _ hple, intRange_head? _ _ (by omega)]
  have hFhi : (fill_calendar T).dates.max? = some hi := by
    rw [hdates, max?_eq_getLast_of_sorted _ hple, intRange_getLast? _ _ (by omega)]
    congr 1
    omega
  have key : fillRows (fun d c => ffillCell (fill_calendar T) lo c d)
      (fill_calendar T).cols.length lo (hi + 1 - lo).toNat
      = fillRows (fun d c => ffillCell T lo c d) T.cols.length lo (hi + 1 - lo).toNat := by
    rw [fill_calendar_cols]
    apply fillRows_congr
    intro x c hx1 hx2 hc
    exact ffill_congr_on_fill T h lo hi hlo hhi x c hx1 (by omega) hc
  have h1 := fill_calendar_eq (fill_calendar T) lo hi hFlo hFhi
  rw [h1, key, fill_calendar_cols]
  exact (fill_calendar_eq T lo hi hlo hhi).symm

theorem c5_fill_calendar_idempotent_witness :
    (⟨["A"], [((0 : Int), [some (1 : Rat)]), (2, [some 5])]⟩ : DFrame).WF
    ∧ fill_calendar (fill_calendar ⟨["A"], [((0 : Int), [some (1 : Rat)]), (2, [some 5])]⟩)
        = fill_calendar ⟨["A"], [((0 : Int), [some (1 : Rat)]), (2, [some 5])]⟩ :=
  ⟨by decide, c5_fill_calendar_idempotent _ (by decide)⟩

/-- C4 (amended): for every well-formed non-empty date-indexed table,
`fill_calendar` produces one row for every calendar date between the index
minimum and maximum inclusive with no gaps, and a single-row table yields a
one-day calendar; however the forward fill is per cell, not per row — the
value at date `d`, column `c` equals the value of `c` at the latest date
≤ `d` at which `c` is non-missing (missing when there is none), which
coincides with the row at the latest original date ≤ `d` only when that row
has no missing cells. -/
theorem c4_fill_calendar_amended (T : DFrame) (h : T.WF) (lo hi : Int)
    (hlo : T.dates.min? = some lo) (hhi : T.dates.max? = some hi) :
    (fill_calendar T).dates = intRange lo (hi + 1 - lo).toNat
    ∧ (∀ d, lo ≤ d → d ≤ hi → ∀ c, c < T.cols.length →
        origCell (fill_calendar T) d c = lastObs T c d)
    ∧ (T.rows.length = 1 → (fill_calendar T).rows.length = 1) := by
  obtain ⟨lo', hi', hlo', hhi', hlohi, hbnd⟩ := WF_bounds T h
  have hel : lo' = lo := by
    rw [hlo] at hlo'
    exact (Option.some_inj.mp hlo').symm
  have heh : hi' = hi := by
    rw [hhi] at hhi'
    exact (Option.some_inj.mp hhi').symm
  rw [hel, heh] at hbnd
  refine ⟨fill_calendar_dates T lo hi hlo hhi, ?_, ?_⟩
  · intro d hd1 hd2 c hc
    rw [origCell_fill T lo hi hlo hhi d c hd1 hd2 hc]
    exact ffillCell_eq_lastObs T c h.2.1 lo d (fun x hx => (hbnd x hx).1)
  · intro h1
    have hd1 : T.dates.length = 1 := by
      unfold DFrame.dates
      simp [h1]
    obtain ⟨a, ha⟩ := List.length_eq_one.mp hd1
    have hmin : T.dates.min? = some a := by rw [ha]; rfl
    have hmax : T.dates.max? = some a := by rw [ha]; rfl
    have hla : lo = a := by
      rw [hlo] at hmin
      exact Option.some_inj.mp hmin
    have hha : hi = a := by
      rw [hhi] at hmax
      exact Option.some_inj.mp hmax
    rw [fill_calendar_eq T lo hi hlo hhi]
    show (fillRows _ _ lo (hi + 1 - lo).toNat).length = 1
    rw [fillRows_length]
    omega

theorem c4_fill_calendar_amended_witness :
    (⟨["A"], [((0 : Int), [some (1 : Rat)]), (2, [some 5])]⟩ : DFrame).WF
    ∧ (⟨["A"], [((0 : Int), [some (1 : Rat)]), (2, [some 5])]⟩ : DFrame).dates.min? = some 0
    ∧ (⟨["A"], [((0 : Int), [some (1 : Rat)]), (2, [some 5])]⟩ : DFrame).dates.max? = some 2
    ∧ (fill_calendar ⟨["A"], [((0 : Int), [some (1 : Rat)]), (2, [some 5])]⟩).dates = intRange 0 3
    ∧ origCell (fill_calendar ⟨["A"], [((0 : Int), [some (1 : Rat)]), (2, [some 5])]⟩) 1 0
        = lastObs ⟨["A"], [((0 : Int), [some (1 : Rat)]), (2, [some 5])]⟩ 0 1
    ∧ lastObs (⟨["A"], [((0 : Int), [some (1 : Rat)]), (2, [some 5])]⟩ : DFrame) 0 1 = some 1 :=
  ⟨by decide, by decide, by decide,
   (c4_fill_calendar_amended _ (by decide) 0 2 (by decide) (by decide)).1,
   (c4_fill_calendar_amended _ (by decide) 0 2 (by decide) (by decide)).2.1 1
     (by decide) (by decide) 0 (by decide),
   by decide⟩

/-- C4 (counterexample): the claim's row-level description fails on a table
with an interior missing cell.  For `T` with column `A` and rows
`0 ↦ 1.0, 1 ↦ NaN, 3 ↦ 2.0`, the calendar date `2` is absent from the
original index and the latest original date ≤ 2 is `1`, whose row is
`[NaN]`; yet `fill_calendar T` at date 2 holds `[1.0]`, because pandas
`ffill` fills each column from its own last non-missing value, not from the
predecessor row. -/
theorem c4_fill_calendar_counterexample :
    (⟨["A"], [((0 : Int), [some (1 : Rat)]), (1, [none]), (3, [some 2])]⟩ : DFrame).WF
    ∧ (2 : Int) ∉ (⟨["A"], [((0 : Int), [some (1 : Rat)]), (1, [none]), (3, [some 2])]⟩ : DFrame).dates
    ∧ rowAt (fill_calendar ⟨["A"], [((0 : Int), [some (1 : Rat)]), (1, [none]), (3, [some 2])]⟩) 2
        = some [some 1]
    ∧ latestRowLE (⟨["A"], [((0 : Int), [some (1 : Rat)]), (1, [none]), (3, [some 2])]⟩ : DFrame) 2
        = some [none]
    ∧ rowAt (fill_calendar ⟨["A"], [((0 : Int), [some (1 : Rat)]), (1, [none]), (3, [some 2])]⟩) 2
        ≠ latestRowLE (⟨["A"], [((0 : Int), [some (1 : Rat)]), (1, [none]), (3, [some 2])]⟩ : DFrame) 2 := by
  refine ⟨by decide, by decide, by decide, by decide, by decide⟩

theorem filtered_dates_eq (T : DFrame) (ref : Int) :
    T.dates.filter (fun x => decide (x ≤ ref)) =
      (T.rows.filter (fun r => decide (r.1 ≤ ref))).map Prod.fst := by
  unfold DFrame.dates
  rw [List.filter_map]
  rfl

/-- C7: for every well-formed date-indexed table and every reference date,
`get_ref_value` returns the row at the latest date ≤ the reference date
(the `latestRowLE` specification); when the reference date precedes the
earliest index date it returns an all-missing row without raising, and when
the reference date is at or after the latest index date it returns the last
row. -/
theorem c7_get_ref_value (T : DFrame) (h : T.WF) (ref : Int) :
    get_ref_value T ref = (latestRowLE T ref).getD (T.cols.map (fun _ => none))
    ∧ (∀ a, T.dates.head? = some a → ref < a →
        get_ref_value T ref = T.cols.map (fun _ => none))
    ∧ (∀ rl, T.rows.getLast? = some rl → rl.1 ≤ ref → get_ref_value T ref = rl.2) := by
  obtain ⟨hne, hso, hlen⟩ := h
  have hple := dates_pairwise_le T hso
  refine ⟨?_, ?_, ?_⟩
  · unfold get_ref_value latestRowLE
    rw [filtered_dates_eq T ref]
    cases hF : (T.rows.filter (fun r => decide (r.1 ≤ ref))).getLast? with
    | none =>
      have hFnil := List.getLast?_eq_none_iff.mp hF
      rw [hFnil]
      rfl
    | some r =>
      have hFple : List.Pairwise (· ≤ ·)
          ((T.rows.filter (fun r => decide (r.1 ≤ ref))).map Prod.fst) := by
        apply List.pairwise_map.mpr
        exact (List.Pairwise.sublist (List.filter_sublist T.rows)
          (rows_pairwise_of_sorted T hso)).imp (fun hx => le_of_lt hx)
      rw [max?_eq_getLast_of_sorted _ hFple, List.getLast?_map, hF]
      have hrF : r ∈ T.rows.filter (fun r => decide (r.1 ≤ ref)) := by
        rcases List.getLast?_eq_some_iff.mp hF with ⟨ys, hys⟩
        rw [hys]
        simp
      have hrT : r ∈ T.rows := List.mem_of_mem_filter hrF
      show r.2 = (rowAt T r.1).getD (T.cols.map (fun _ => none))
      unfold rowAt
      rw [find?_row_of_mem T hso r hrT]
      rfl
  · intro a ha hra
    have hFnil : T.rows.filter (fun r => decide (r.1 ≤ ref)) = [] := by
      apply List.filter_eq_nil_iff.mpr
      intro r hr
      have h1 : a ≤ r.1 :=
        sorted_head_le T.dates hple a r.1 ha (List.mem_map_of_mem Prod.fst hr)
      simp only [decide_eq_true_eq]
      omega
    unfold get_ref_value
    rw [hFnil]
    rfl
  · intro rl hrl href
    have hFall : T.rows.filter (fun r => decide (r.1 ≤ ref)) = T.rows := by
      apply List.filter_eq_self.mpr
      intro r hr
      have hdl : T.dates.getLast? = some rl.1 := by
        unfold DFrame.dates
        rw [List.getLast?_map, hrl]
        rfl
      have h1 : r.1 ≤ rl.1 :=
        sorted_le_getLast T.dates hple rl.1 r.1 hdl (List.mem_map_of_mem Prod.fst hr)
      simp only [decide_eq_true_eq]
      omega
    unfold get_ref_value
    rw [hFall, hrl]

theorem c7_get_ref_value_witness :
    (⟨["A", "B"], [((0 : Int), [some (1 : Rat), none]), (2, [some 3, some 4])]⟩ : DFrame).WF
    ∧ get_ref_value ⟨["A", "B"], [((0 : Int), [some (1 : Rat), none]), (2, [some 3, some 4])]⟩ 1
        = (latestRowLE ⟨["A", "B"], [((0 : Int), [some (1 : Rat), none]), (2, [some 3, some 4])]⟩ 1).getD
            ((["A", "B"] : List String).map (fun _ => none))
    ∧ get_ref_value ⟨["A", "B"], [((0 : Int), [some (1 : Rat), none]), (2, [some 3, some 4])]⟩ (-5)
        = (["A", "B"] : List String).map (fun _ => none)
    ∧ get_ref_value ⟨["A", "B"], [((0 : Int), [some (1 : Rat), none]), (2, [some 3, some 4])]⟩ 7
        = [some 3, some 4] :=
  ⟨by decide,
   (c7_get_ref_value _ (by decide) 1).1,
   (c7_get_ref_value _ (by decide) (-5)).2.1 0 (by decide) (by decide),
   (c7_get_ref_value _ (by decide) 7).2.2 (2, [some 3, some 4]) (by decide) (by decide)⟩

theorem contains_iff_mem (a : List Int) (x : Int) : a.contains x = true ↔ x ∈ a := by
  simp

theorem mem_union_base (a b : List Int) (x : Int) :
    x ∈ a ++ b.filter (fun d => !a.contains d) ↔ x ∈ a ∨ x ∈ b := by
  rw [List.mem_append, List.mem_filter]
  by_cases hxa : x ∈ a
  · simp [hxa]
  · simp [hxa, contains_iff_mem]

theorem union_base_nodup (a b : List Int) (ha : a.Nodup) (hb : b.Nodup) :
    (a ++ b.filter (fun d => !a.contains d)).Nodup := by
  apply List.Nodup.append ha ((List.filter_sublist b).nodup hb)
  intro x hxa hxf
  rw [List.mem_filter] at hxf
  have := hxf.2
  simp [contains_iff_mem] at this
  exact this hxa

theorem mem_sortedUnion (a b : List Int) (x : Int) :
    x ∈ sortedUnion a b ↔ x ∈ a ∨ x ∈ b := by
  unfold sortedUnion
  rw [(List.perm_insertionSort _ _).mem_iff]
  exact mem_union_base a b x

theorem sortedUnion_nodup (a b : List Int) (ha : a.Nodup) (hb : b.Nodup) :
    (sortedUnion a b).Nodup :=
  (List.perm_insertionSort _ _).nodup_iff.mpr (union_base_nodup a b ha hb)

theorem sortedUnion_sorted_le (a b : List Int) :
    List.Pairwise (· ≤ ·) (sortedUnion a b) :=
  List.sorted_insertionSort _ _

theorem sortedUnion_comm (a b : List Int) (ha : a.Nodup) (hb : b.Nodup) :
    sortedUnion a b = sortedUnion b a := by
  apply List.eq_of_perm_of_sorted _ (sortedUnion_sorted_le a b) (sortedUnion_sorted_le b a)
  have h1 : (sortedUnion a b).Perm (a ++ b.filter (fun d => !a.contains d)) :=
    List.perm_insertionSort _ _
  have h2 : (sortedUnion b a).Perm (b ++ a.filter (fun d => !b.contains d)) :=
    List.perm_insertionSort _ _
  have h3 : (a ++ b.filter (fun d => !a.contains d)).Perm
      (b ++ a.filter (fun d => !b.contains d)) := by
    apply (List.perm_ext_iff_of_nodup (union_base_nodup a b ha hb)
      (union_base_nodup b a hb ha)).mpr
    intro x
    rw [mem_union_base, mem_union_base]
    tauto
  exact h1.trans (h3.trans h2.symm)

theorem unionFfill_left (g k : DFrame) (hg : g.WF) (hk : k.WF) (d : Int) (c : Nat)
    (hc : c < g.cols.length) :
    unionFfillCell g k (sortedUnion g.dates k.dates) d c = lastObs g c d := by
  obtain ⟨glo, ghi, _, _, _, hgb⟩ := WF_bounds g hg
  obtain ⟨klo, khi, _, _, _, hkb⟩ := WF_bounds k hk
  set lo := min glo klo with hlodef
  have hbound : ∀ x ∈ sortedUnion g.dates k.dates, lo ≤ x := by
    intro x hx
    rcases (mem_sortedUnion _ _ x).mp hx with h | h
    · have := (hgb x h).1
      omega
    · have := (hkb x h).1
      omega
  unfold unionFfillCell
  have hjoin : (((sortedUnion g.dates k.dates).filter (fun x => decide (x ≤ d))).reverse).findSome?
      (fun x => joinCell g k x c) =
      (((sortedUnion g.dates k.dates).filter (fun x => decide (x ≤ d))).reverse).findSome?
        (fun x => origCell g x c) := by
    apply findSome?_ext
    intro x _
    unfold joinCell
    rw [if_pos hc]
  rw [hjoin]
  rw [lastObs_eq_range_scan g c hg.2.1 lo d (fun x hx => (hgb x hx).1.trans' (by omega))]
  apply sparse_scan_eq (fun x => origCell g x c) _ d lo _ rfl
  · rw [List.pairwise_reverse]
    have hple : List.Pairwise (· ≤ ·)
        ((sortedUnion g.dates k.dates).filter (fun x => decide (x ≤ d))) :=
      (sortedUnion_sorted_le g.dates k.dates).sublist (List.filter_sublist _)
    have hnd : ((sortedUnion g.dates k.dates).filter (fun x => decide (x ≤ d))).Nodup :=
      (List.filter_sublist _).nodup (sortedUnion_nodup g.dates k.dates
        (dates_nodup_of_sorted g hg.2.1) (dates_nodup_of_sorted k hk.2.1))
    exact List.Sorted.lt_of_le hple hnd
  · intro x hx
    rw [List.mem_reverse, List.mem_filter] at hx
    refine ⟨hbound x hx.1, by simpa using hx.2⟩
  · intro x hx1 hx2 hfx
    rw [List.mem_reverse, List.mem_filter]
    have hxg : x ∈ g.dates := origCell_ne_none_mem g x c hfx
    exact ⟨(mem_sortedUnion _ _ x).mpr (Or.inl hxg), by simpa using hx2⟩

theorem unionFfill_right (g k : DFrame) (hg : g.WF) (hk : k.WF) (d : Int) (c : Nat)
    (hc : g.cols.length ≤ c) :
    unionFfillCell g k (sortedUnion g.dates k.dates) d c = lastObs k (c - g.cols.length) d := by
  obtain ⟨glo, ghi, _, _, _, hgb⟩ := WF_bounds g hg
  obtain ⟨klo, khi, _, _, _, hkb⟩ := WF_bounds k hk
  set lo := min glo klo with hlodef
  have hbound : ∀ x ∈ sortedUnion g.dates k.dates, lo ≤ x := by
    intro x hx
    rcases (mem_sortedUnion _ _ x).mp hx with h | h
    · have := (hgb x h).1
      omega
    · have := (hkb x h).1
      omega
  unfold unionFfillCell
  have hjoin : (((sortedUnion g.dates k.dates).filter (fun x => decide (x ≤ d))).reverse).findSome?
      (fun x => joinCell g k x c) =
      (((sortedUnion g.dates k.dates).filter (fun x => decide (x ≤ d))).reverse).findSome?
        (fun x => origCell k x (c - g.cols.length)) := by
    apply findSome?_ext
    intro x _
    unfold joinCell
    rw [if_neg (by omega)]
  rw [hjoin]
  rw [lastObs_eq_range_scan k (c - g.cols.length) hk.2.1 lo d
    (fun x hx => (hkb x hx).1.trans' (by omega))]
  apply sparse_scan_eq (fun x => origCell k x (c - g.cols.length)) _ d lo _ rfl
  · rw [List.pairwise_reverse]
    have hple : List.Pairwise (· ≤ ·)
        ((sortedUnion g.dates k.dates).filter (fun x => decide (x ≤ d))) :=
      (sortedUnion_sorted_le g.dates k.dates).sublist (List.filter_sublist _)
    have hnd : ((sortedUnion g.dates k.dates).filter (fun x => decide (x ≤ d))).Nodup :=
      (List.filter_sublist _).nodup (sortedUnion_nodup g.dates k.dates
        (dates_nodup_of_sorted g hg.2.1) (dates_nodup_of_sorted k hk.2.1))
    exact List.Sorted.lt_of_le hple hnd
  · intro x hx
    rw [List.mem_reverse, List.mem_filter] at hx
    refine ⟨hbound x hx.1, by simpa using hx.2⟩
  · intro x hx1 hx2 hfx
    rw [List.mem_reverse, List.mem_filter]
    have hxk : x ∈ k.dates := origCell_ne_none_mem k x (c - g.cols.length) hfx
    exact ⟨(mem_sortedUnion _ _ x).mpr (Or.inr hxk), by simpa using hx2⟩

theorem rowEntries_mem :
    ∀ (ns : List String) (vs : List (Option Rat)) (p : String × Option Rat),
      p ∈ rowEntries ns vs ↔ ∃ c : Nat, ns[c]? = some p.1 ∧ vs[c]? = some p.2 := by
  intro ns
  induction ns with
  | nil =>
    intro vs p
    constructor
    · intro h
      cases vs <;> simp [rowEntries] at h
    · rintro ⟨c, hc, _⟩
      simp at hc
  | cons n ns ih =>
    intro vs p
    cases vs with
    | nil =>
      constructor
      · intro h
        simp [rowEntries] at h
      · rintro ⟨c, _, hv⟩
        simp at hv
    | cons v vs =>
      rw [rowEntries, List.mem_cons, ih vs p]
      constructor
      · rintro (h | ⟨c, hc, hv⟩)
        · exact ⟨0, by simp [h], by simp [h]⟩
        · exact ⟨c + 1, by simpa using hc, by simpa using hv⟩
      · rintro ⟨c, hc, hv⟩
        cases c with
        | zero =>
          left
          simp only [List.getElem?_cons_zero, Option.some_inj] at hc hv
          cases p with
          | mk p1 p2 =>
            simp only [Prod.mk.injEq]
            exact ⟨hc.symm, hv.symm⟩
        | succ c =>
          right
          exact ⟨c, by simpa using hc, by simpa using hv⟩

theorem mem_entries_iff (T : DFrame) (e : Int × String × Option Rat) :
    e ∈ entries T ↔
      ∃ r ∈ T.rows, r.1 = e.1 ∧ ∃ c : Nat, T.cols[c]? = some e.2.1 ∧ r.2[c]? = some e.2.2 := by
  unfold entries
  rw [List.mem_flatMap]
  constructor
  · rintro ⟨r, hr, hmem⟩
    rcases List.mem_map.mp hmem with ⟨p, hp, hpe⟩
    rcases (rowEntries_mem T.cols r.2 p).mp hp with ⟨c, hc, hv⟩
    refine ⟨r, hr, by rw [← hpe], c, by rw [← hpe]; exact hc, by rw [← hpe]; exact hv⟩
  · rintro ⟨r, hr, he1, c, hc, hv⟩
    refine ⟨r, hr, ?_⟩
    apply List.mem_map.mpr
    refine ⟨(e.2.1, e.2.2), (rowEntries_mem _ _ _).mpr ⟨c, hc, hv⟩, ?_⟩
    rw [he1]

theorem mem_entries_merge (g k : DFrame) (hg : g.WF) (hk : k.WF)
    (e : Int × String × Option Rat) :
    e ∈ entries (merge_treasury g k) ↔
      (e.1 ∈ sortedUnion g.dates k.dates ∧
        ((∃ c : Nat, g.cols[c]? = some e.2.1 ∧ lastObs g c e.1 = e.2.2) ∨
         (∃ c : Nat, k.cols[c]? = some e.2.1 ∧ lastObs k c e.1 = e.2.2))) := by
  have hrows : (merge_treasury g k).rows =
      (sortedUnion g.dates k.dates).map (fun d =>
        (d, (List.range (g.cols.length + k.cols.length)).map
          (fun c => unionFfillCell g k (sortedUnion g.dates k.dates) d c))) := rfl
  have hcols : (merge_treasury g k).cols = g.cols ++ k.cols := rfl
  rw [mem_entries_iff, hrows, hcols]
  constructor
  · rintro ⟨r, hr, hr1, c, hc, hv⟩
    rcases List.mem_map.mp hr with ⟨d, hd, hrd⟩
    have hde : d = e.1 := by rw [← hr1, ← hrd]
    subst hde
    have hr2 : r.2 = (List.range (g.cols.length + k.cols.length)).map
        (fun c => unionFfillCell g k (sortedUnion g.dates k.dates) e.1 c) := by
      rw [← hrd]
    rw [hr2, List.getElem?_map] at hv
    have hcL : c < g.cols.length + k.cols.length := by
      by_contra hcon
      rw [List.getElem?_eq_none (by simpa using hcon)] at hv
      simp at hv
    rw [List.getElem?_range hcL] at hv
    simp only [Option.map_some', Option.some_inj] at hv
    rw [List.getElem?_append] at hc
    by_cases hcg : c < g.cols.length
    · rw [if_pos hcg] at hc
      refine ⟨hd, Or.inl ⟨c, hc, ?_⟩⟩
      rw [← hv]
      exact (unionFfill_left g k hg hk e.1 c hcg).symm
    · rw [if_neg hcg] at hc
      refine ⟨hd, Or.inr ⟨c - g.cols.length, hc, ?_⟩⟩
      rw [← hv]
      exact (unionFfill_right g k hg hk e.1 c (by omega)).symm
  · rintro ⟨hd, hside⟩
    refine ⟨(e.1, (List.range (g.cols.length + k.cols.length)).map
      (fun c => unionFfillCell g k (sortedUnion g.dates k.dates) e.1 c)),
      List.mem_map_of_mem _ hd, rfl, ?_⟩
    rcases hside with ⟨c, hc, hlast⟩ | ⟨c, hc, hlast⟩
    · have hcg : c < g.cols.length := by
        rcases List.getElem?_eq_some_iff.mp hc with ⟨hlt, _⟩
        exact hlt
      refine ⟨c, ?_, ?_⟩
      · rw [List.getElem?_append, if_pos hcg]
        exact hc
      · rw [List.getElem?_map, List.getElem?_range (by omega)]
        simp only [Option.map_some', Option.some_inj]
        rw [unionFfill_left g k hg hk e.1 c hcg]
        exact hlast
    · have hck : c < k.cols.length := by
        rcases List.getElem?_eq_some_iff.mp hc with ⟨hlt, _⟩
        exact hlt
      refine ⟨g.cols.length + c, ?_, ?_⟩
      · rw [List.getElem?_append, if_neg (by omega)]
        have hcc : g.cols.length + c - g.cols.length = c := by omega
        rw [hcc]
        exact hc
      · rw [List.getElem?_map, List.getElem?_range (by omega)]
        simp only [Option.map_some', Option.some_inj]
        rw [unionFfill_right g k hg hk e.1 (g.cols.length + c) (by omega)]
        have hcc : g.cols.length + c - g.cols.length = c := by omega
        rw [hcc]
        exact hlast

/-- C6: for all well-formed calendar tables with disjoint column sets, the
merge (outer join on the date index followed by forward fill) produces the
same set of (date, column, value) entries regardless of argument order —
`merge_treasury` is commutative up to column ordering. -/
theorem c6_merge_value_set_comm (g k : DFrame) (hg : g.WF) (hk : k.WF)
    (hdis : ∀ c ∈ g.cols, c ∉ k.cols) :
    ∀ e, e ∈ entries (merge_treasury g k) ↔ e ∈ entries (merge_treasury k g) := by
  intro e
  rw [mem_entries_merge g k hg hk e, mem_entries_merge k g hk hg e,
    sortedUnion_comm g.dates k.dates (dates_nodup_of_sorted g hg.2.1)
      (dates_nodup_of_sorted k hk.2.1)]
  constructor
  · rintro ⟨h1, h2⟩
    exact ⟨h1, h2.symm⟩
  · rintro ⟨h1, h2⟩
    exact ⟨h1, h2.symm⟩

theorem c6_merge_value_set_comm_witness :
    (⟨["US_10Y"], [((0 : Int), [some (1 : Rat)]), (1, [some 2])]⟩ : DFrame).WF
    ∧ (⟨["KR_10Y"], [((1 : Int), [some (5 : Rat)]), (2, [some 6])]⟩ : DFrame).WF
    ∧ (∀ c ∈ (["US_10Y"] : List String), c ∉ (["KR_10Y"] : List String))
    ∧ (((2 : Int), "US_10Y", some (2 : Rat)) ∈
        entries (merge_treasury ⟨["US_10Y"], [((0 : Int), [some (1 : Rat)]), (1, [some 2])]⟩
          ⟨["KR_10Y"], [((1 : Int), [some (5 : Rat)]), (2, [some 6])]⟩)
        ↔ ((2 : Int), "US_10Y", some (2 : Rat)) ∈
            entries (merge_treasury ⟨["KR_10Y"], [((1 : Int), [some (5 : Rat)]), (2, [some 6])]⟩
              ⟨["US_10Y"], [((0 : Int), [some (1 : Rat)]), (1, [some 2])]⟩))
    ∧ ((2 : Int), "US_10Y", some (2 : Rat)) ∈
        entries (merge_treasury ⟨["US_10Y"], [((0 : Int), [some (1 : Rat)]), (1, [some 2])]⟩
          ⟨["KR_10Y"], [((1 : Int), [some (5 : Rat)]), (2, [some 6])]⟩) :=
  ⟨by decide, by decide, by decide,
   c6_merge_value_set_comm _ _ (by decide) (by decide) (by decide) _,
   by decide⟩

theorem bpChange_none_left (x : Option Rat) : bpChange none x = none := rfl

theorem bpChange_none_right (x : Option Rat) : bpChange x none = none := by
  cases x <;> rfl

theorem summaryCell_spec (T : DFrame) (t : Int) (cc cname : String) (tenor : Nat)
    (hmem : (cc, cname) ∈ country_map) (hten : tenor ∈ ([2, 10] : List Nat)) :
    summaryCell (build_change_summary T (some t)) cname (tenorLabel tenor, "금리 (%)")
        = some (seriesGet T.cols (get_ref_value T t) (cc ++ "_" ++ toString tenor ++ "Y"))
    ∧ summaryCell (build_change_summary T (some t)) cname (tenorLabel tenor, "1D")
        = some (bpChange (seriesGet T.cols (get_ref_value T t) (cc ++ "_" ++ toString tenor ++ "Y"))
            (seriesGet T.cols (get_ref_value T (t - 1)) (cc ++ "_" ++ toString tenor ++ "Y")))
    ∧ summaryCell (build_change_summary T (some t)) cname (tenorLabel tenor, "1W")
        = some (bpChange (seriesGet T.cols (get_ref_value T t) (cc ++ "_" ++ toString tenor ++ "Y"))
            (seriesGet T.cols (get_ref_value T (t - 7)) (cc ++ "_" ++ toString tenor ++ "Y")))
    ∧ summaryCell (build_change_summary T (some t)) cname (tenorLabel tenor, "MTD")
        = some (bpChange (seriesGet T.cols (get_ref_value T t) (cc ++ "_" ++ toString tenor ++ "Y"))
            (seriesGet T.cols
              (get_ref_value T (daysFromCivil (civilFromDays t).1 (civilFromDays t).2.1 1 - 1))
              (cc ++ "_" ++ toString tenor ++ "Y")))
    ∧ summaryCell (build_change_summary T (some t)) cname (tenorLabel tenor, "YTD")
        = some (bpChange (seriesGet T.cols (get_ref_value T t) (cc ++ "_" ++ toString tenor ++ "Y"))
            (seriesGet T.cols (get_ref_value T (daysFromCivil ((civilFromDays t).1 - 1) 12 31))
              (cc ++ "_" ++ toString tenor ++ "Y")))
    ∧ summaryCell (build_change_summary T (some t)) cname (tenorLabel tenor, "YoY")
        = some (bpChange (seriesGet T.cols (get_ref_value T t) (cc ++ "_" ++ toString tenor ++ "Y"))
            (seriesGet T.cols (get_ref_value T (subYears1 t))
              (cc ++ "_" ++ toString tenor ++ "Y"))) := by
  simp only [country_map, List.mem_cons, List.not_mem_nil, or_false, Prod.mk.injEq] at hmem
  simp only [List.mem_cons, List.not_mem_nil, or_false] at hten
  rcases hmem with ⟨h1, h2⟩ | ⟨h1, h2⟩ | ⟨h1, h2⟩ | ⟨h1, h2⟩ | ⟨h1, h2⟩ | ⟨h1, h2⟩ <;>
    subst h1 <;> subst h2 <;>
    (rcases hten with h3 | h3 <;> subst h3 <;> exact ⟨rfl, rfl, rfl, rfl, rfl, rfl⟩)

theorem seriesGet_not_mem (cols : List String) (vals : List (Option Rat)) (key : String)
    (h : key ∉ cols) : seriesGet cols vals key = none := by
  unfold seriesGet
  rw [List.indexOf?_eq_none_iff.mpr]
  intro x hx
  simp only [beq_iff_eq]
  intro he
  exact h (he ▸ hx)

/-- C8: for every merged table and reference date, `build_change_summary`
computes, per country and tenor, the lookback reference dates by fixed
calendar arithmetic — reference − 1 day (1D), reference − 7 days (1W), first
day of the reference month minus 1 day (MTD), Dec 31 of the previous year
(YTD), and the same calendar date one year back with Feb 29 clamped (YoY) —
and each delta cell equals `(current − reference) × 100` basis points, where
the delta is missing (never zero) whenever either side is missing. -/
theorem c8_build_change_summary (T : DFrame) (t : Int) (cc cname : String) (tenor : Nat)
    (hmem : (cc, cname) ∈ country_map) (hten : tenor ∈ ([2, 10] : List Nat)) :
    (summaryCell (build_change_summary T (some t)) cname (tenorLabel tenor, "금리 (%)")
        = some (seriesGet T.cols (get_ref_value T t) (cc ++ "_" ++ toString tenor ++ "Y"))
    ∧ summaryCell (build_change_summary T (some t)) cname (tenorLabel tenor, "1D")
        = some (bpChange (seriesGet T.cols (get_ref_value T t) (cc ++ "_" ++ toString tenor ++ "Y"))
            (seriesGet T.cols (get_ref_value T (t - 1)) (cc ++ "_" ++ toString tenor ++ "Y")))
    ∧ summaryCell (build_change_summary T (some t)) cname (tenorLabel tenor, "1W")
        = some (bpChange (seriesGet T.cols (get_ref_value T t) (cc ++ "_" ++ toString tenor ++ "Y"))
            (seriesGet T.cols (get_ref_value T (t - 7)) (cc ++ "_" ++ toString tenor ++ "Y")))
    ∧ summaryCell (build_change_summary T (some t)) cname (tenorLabel tenor, "MTD")
        = some (bpChange (seriesGet T.cols (get_ref_value T t) (cc ++ "_" ++ toString tenor ++ "Y"))
            (seriesGet T.cols
              (get_ref_value T (daysFromCivil (civilFromDays t).1 (civilFromDays t).2.1 1 - 1))
              (cc ++ "_" ++ toString tenor ++ "Y")))
    ∧ summaryCell (build_change_summary T (some t)) cname (tenorLabel tenor, "YTD")
        = some (bpChange (seriesGet T.cols (get_ref_value T t) (cc ++ "_" ++ toString tenor ++ "Y"))
            (seriesGet T.cols (get_ref_value T (daysFromCivil ((civilFromDays t).1 - 1) 12 31))
              (cc ++ "_" ++ toString tenor ++ "Y")))
    ∧ summaryCell (build_change_summary T (some t)) cname (tenorLabel tenor, "YoY")
        = some (bpChange (seriesGet T.cols (get_ref_value T t) (cc ++ "_" ++ toString tenor ++ "Y"))
            (seriesGet T.cols (get_ref_value T (subYears1 t))
              (cc ++ "_" ++ toString tenor ++ "Y"))))
    ∧ (∀ x, bpChange none x = none) ∧ (∀ x, bpChange x none = none) :=
  ⟨summaryCell_spec T t cc cname tenor hmem hten, bpChange_none_left, bpChange_none_right⟩

theorem bp_example_eval : ((4.15 : Rat) - 4.12) * 100 = 3 := by
  norm_num

theorem c8_build_change_summary_witness :
    ("US", "미국") ∈ country_map
    ∧ (2 : Nat) ∈ ([2, 10] : List Nat)
    ∧ summaryCell
        (build_change_summary
          ⟨["US_2Y"], [(daysFromCivil 2026 2 17, [some (4.12 : Rat)]),
                       (daysFromCivil 2026 2 18, [some (4.15 : Rat)])]⟩
          (some (daysFromCivil 2026 2 18)))
        "미국" (tenorLabel 2, "1D") = some (some 3) := by
  refine ⟨by decide, by decide, ?_⟩
  have h := (c8_build_change_summary
    ⟨["US_2Y"], [(daysFromCivil 2026 2 17, [some (4.12 : Rat)]),
                 (daysFromCivil 2026 2 18, [some (4.15 : Rat)])]⟩
    (daysFromCivil 2026 2 18) "US" "미국" 2 (by decide) (by decide)).1.2.1
  rw [h]
  have hcur : seriesGet
      (⟨["US_2Y"], [(daysFromCivil 2026 2 17, [some (4.12 : Rat)]),
                    (daysFromCivil 2026 2 18, [some (4.15 : Rat)])]⟩ : DFrame).cols
      (get_ref_value
        ⟨["US_2Y"], [(daysFromCivil 2026 2 17, [some (4.12 : Rat)]),
                     (daysFromCivil 2026 2 18, [some (4.15 : Rat)])]⟩
        (daysFromCivil 2026 2 18))
      ("US" ++ "_" ++ toString 2 ++ "Y") = some (4.15 : Rat) := rfl
  have href : seriesGet
      (⟨["US_2Y"], [(daysFromCivil 2026 2 17, [some (4.12 : Rat)]),
                    (daysFromCivil 2026 2 18, [some (4.15 : Rat)])]⟩ : DFrame).cols
      (get_ref_value
        ⟨["US_2Y"], [(daysFromCivil 2026 2 17, [some (4.12 : Rat)]),
                     (daysFromCivil 2026 2 18, [some (4.15 : Rat)])]⟩
        (daysFromCivil 2026 2 18 - 1))
      ("US" ++ "_" ++ toString 2 ++ "Y") = some (4.12 : Rat) := rfl
  rw [hcur, href]
  show some (some (((4.15 : Rat) - 4.12) * 100)) = some (some 3)
  rw [bp_example_eval]

/-- C10: for every input table and every reference date,
`build_change_summary` returns exactly six rows labelled 미국, 한국, 독일,
영국, 일본, 중국 in that fixed order, and exactly twelve columns (per tenor
2Y and 10Y: the current level plus the 1D/1W/MTD/YTD/YoY deltas); it never
raises when an instrument column is absent from the input — the level and
every delta of that instrument are missing values. -/
theorem c10_summary_shape (T : DFrame) (t : Int) :
    (build_change_summary T (some t)).rows.map Prod.fst
        = ["미국", "한국", "독일", "영국", "일본", "중국"]
    ∧ (build_change_summary T (some t)).colLabels = summaryLabels
    ∧ summaryLabels.length = 12
    ∧ (∀ r ∈ (build_change_summary T (some t)).rows, r.2.length = 12)
    ∧ (∀ cc cname tenor, (cc, cname) ∈ country_map → tenor ∈ ([2, 10] : List Nat) →
        (cc ++ "_" ++ toString tenor ++ "Y") ∉ T.cols →
        summaryCell (build_change_summary T (some t)) cname (tenorLabel tenor, "금리 (%)")
            = some none
        ∧ ∀ lbl ∈ (["1D", "1W", "MTD", "YTD", "YoY"] : List String),
            summaryCell (build_change_summary T (some t)) cname (tenorLabel tenor, lbl)
              = some none) := by
  refine ⟨rfl, rfl, rfl, ?_, ?_⟩
  · intro r hr
    simp only [build_change_summary, ordered_codes, List.map_cons, List.map_nil,
      List.mem_cons, List.not_mem_nil, or_false] at hr
    rcases hr with h | h | h | h | h | h <;> subst h <;> rfl
  · intro cc cname tenor hmem hten hkey
    obtain ⟨h1, h2, h3, h4, h5, h6⟩ := summaryCell_spec T t cc cname tenor hmem hten
    have hnone : seriesGet T.cols (get_ref_value T t) (cc ++ "_" ++ toString tenor ++ "Y")
        = none := seriesGet_not_mem _ _ _ hkey
    refine ⟨by rw [h1, hnone], ?_⟩
    intro lbl hlbl
    simp only [List.mem_cons, List.not_mem_nil, or_false] at hlbl
    rcases hlbl with h | h | h | h | h <;> subst h
    · rw [h2, hnone, bpChange_none_left]
    · rw [h3, hnone, bpChange_none_left]
    · rw [h4, hnone, bpChange_none_left]
    · rw [h5, hnone, bpChange_none_left]
    · rw [h6, hnone, bpChange_none_left]

theorem c10_summary_shape_witness :
    (build_change_summary ⟨["KR_2Y"], [((0 : Int), [some (1 : Rat)])]⟩ (some 0)).rows.map Prod.fst
        = ["미국", "한국", "독일", "영국", "일본", "중국"]
    ∧ ("US", "미국") ∈ country_map
    ∧ (2 : Nat) ∈ ([2, 10] : List Nat)
    ∧ ("US" ++ "_" ++ toString 2 ++ "Y") ∉ (["KR_2Y"] : List String)
    ∧ summaryCell (build_change_summary ⟨["KR_2Y"], [((0 : Int), [some (1 : Rat)])]⟩ (some 0))
        "미국" (tenorLabel 2, "금리 (%)") = some none
    ∧ summaryCell (build_change_summary ⟨["KR_2Y"], [((0 : Int), [some (1 : Rat)])]⟩ (some 0))
        "미국" (tenorLabel 2, "1D") = some none :=
  ⟨(c10_summary_shape ⟨["KR_2Y"], [((0 : Int), [some (1 : Rat)])]⟩ 0).1,
   by decide, by decide, by decide,
   ((c10_summary_shape ⟨["KR_2Y"], [((0 : Int), [some (1 : Rat)])]⟩ 0).2.2.2.2
     "US" "미국" 2 (by decide) (by decide) (by decide)).1,
   ((c10_summary_shape ⟨["KR_2Y"], [((0 : Int), [some (1 : Rat)])]⟩ 0).2.2.2.2
     "US" "미국" 2 (by decide) (by decide) (by decide)).2 "1D" (by decide)⟩

theorem kept_map_snd (cols : List String) :
    (cols.filterMap (fun c => (bondColCode c).map (fun code => (c, code)))).map Prod.snd
      = cols.filterMap bondColCode := by
  induction cols with
  | nil => rfl
  | cons c cs ih =>
    cases hb : bondColCode c with
    | none => simp [List.filterMap_cons, hb, ih]
    | some code => simp [List.filterMap_cons, hb, ih]

/-- C9: `standardize_bond` raises the no-recognized-columns error exactly
when zero column headers map to a known instrument pattern; on a table
mixing recognized and unrecognized headers it does not raise — the
unrecognized columns are dropped, the recognized ones are renamed to their
canonical codes and ordered by the fixed catalog precedence, every cell is
coerced with `to_numeric` semantics (an unparseable or missing cell becomes
missing, never an exception), and the result is calendar-filled. -/
theorem c9_standardize_bond (R : RawFrame) :
    ((∀ c ∈ R.cols, bondColCode c = none) →
      standardize_bond R = .error noRecognizedColumnsMsg)
    ∧ (∀ c₀ ∈ R.cols, (bondColCode c₀).isSome →
        ∃ pre : DFrame, standardize_bond R = .ok (fill_calendar pre)
          ∧ pre.cols = List.insertionSort codeOrder (R.cols.filterMap bondColCode)
          ∧ pre.rows = (List.insertionSort (fun a b : Int × List RawCell => a.1 ≤ b.1) R.rows).map
              (fun r => (r.1, pre.cols.map (fun code =>
                (((R.cols.filterMap (fun c => (bondColCode c).map (fun code => (c, code)))).find?
                    (fun p => p.2 == code)).bind (fun p => R.cols.indexOf? p.1)).bind
                  (fun i => (r.2[i]?).bind (fun cell => toNumeric cell))))))
    ∧ toNumeric RawCell.bad = none ∧ toNumeric RawCell.blank = none := by
  refine ⟨?_, ?_, rfl, rfl⟩
  · intro hall
    have hkept : R.cols.filterMap (fun c => (bondColCode c).map (fun code => (c, code))) = [] := by
      apply List.filterMap_eq_nil_iff.mpr
      intro c hc
      rw [hall c hc]
      rfl
    show (if (R.cols.filterMap (fun c => (bondColCode c).map (fun code => (c, code)))).isEmpty
        then (Except.error noRecognizedColumnsMsg : Except String DFrame)
        else .ok (fill_calendar
          ⟨List.insertionSort codeOrder
            ((R.cols.filterMap (fun c => (bondColCode c).map (fun code => (c, code)))).map Prod.snd),
           (List.insertionSort (fun a b : Int × List RawCell => a.1 ≤ b.1) R.rows).map
             (fun r => (r.1,
               (List.insertionSort codeOrder
                 ((R.cols.filterMap (fun c => (bondColCode c).map (fun code => (c, code)))).map
                   Prod.snd)).map (fun code =>
                 (((R.cols.filterMap (fun c => (bondColCode c).map (fun code => (c, code)))).find?
                     (fun p => p.2 == code)).bind (fun p => R.cols.indexOf? p.1)).bind
                   (fun i => (r.2[i]?).bind (fun cell => toNumeric cell)))))⟩))
        = Except.error noRecognizedColumnsMsg
    rw [hkept]
    rfl
  · intro c₀ hc0 hsome
    obtain ⟨code₀, hcode0⟩ := Option.isSome_iff_exists.mp hsome
    have hmemk : (c₀, code₀) ∈
        R.cols.filterMap (fun c => (bondColCode c).map (fun code => (c, code))) :=
      List.mem_filterMap.mpr ⟨c₀, hc0, by rw [hcode0]; rfl⟩
    have hemp : (R.cols.filterMap
        (fun c => (bondColCode c).map (fun code => (c, code)))).isEmpty = false := by
      cases hk : R.cols.filterMap (fun c => (bondColCode c).map (fun code => (c, code))) with
      | nil => rw [hk] at hmemk; simp at hmemk
      | cons a t => rfl
    refine ⟨⟨List.insertionSort codeOrder
        ((R.cols.filterMap (fun c => (bondColCode c).map (fun code => (c, code)))).map Prod.snd),
      (List.insertionSort (fun a b : Int × List RawCell => a.1 ≤ b.1) R.rows).map
        (fun r => (r.1,
          (List.insertionSort codeOrder
            ((R.cols.filterMap (fun c => (bondColCode c).map (fun code => (c, code)))).map
              Prod.snd)).map (fun code =>
            (((R.cols.filterMap (fun c => (bondColCode c).map (fun code => (c, code)))).find?
                (fun p => p.2 == code)).bind (fun p => R.cols.indexOf? p.1)).bind
              (fun i => (r.2[i]?).bind (fun cell => toNumeric cell)))))⟩, ?_, ?_, rfl⟩
    · show (if (R.cols.filterMap (fun c => (bondColCode c).map (fun code => (c, code)))).isEmpty
          then (Except.error noRecognizedColumnsMsg : Except String DFrame)
          else .ok (fill_calendar
            ⟨List.insertionSort codeOrder
              ((R.cols.filterMap (fun c => (bondColCode c).map (fun code => (c, code)))).map
                Prod.snd),
             (List.insertionSort (fun a b : Int × List RawCell => a.1 ≤ b.1) R.rows).map
               (fun r => (r.1,
                 (List.insertionSort codeOrder
                   ((R.cols.filterMap (fun c => (bondColCode c).map (fun code => (c, code)))).map
                     Prod.snd)).map (fun code =>
                   (((R.cols.filterMap (fun c => (bondColCode c).map (fun code => (c, code)))).find?
                       (fun p => p.2 == code)).bind (fun p => R.cols.indexOf? p.1)).bind
                     (fun i => (r.2[i]?).bind (fun cell => toNumeric cell)))))⟩))
          = _
      rw [hemp]
      rfl
    · show List.insertionSort codeOrder
          ((R.cols.filterMap (fun c => (bondColCode c).map (fun code => (c, code)))).map Prod.snd)
          = List.insertionSort codeOrder (R.cols.filterMap bondColCode)
      rw [kept_map_snd]

theorem c9_standardize_bond_witness :
    (∀ c ∈ (⟨["X1", "X2"], [((3 : Int), [RawCell.num 1, RawCell.num 2])]⟩ : RawFrame).cols,
      bondColCode c = none)
    ∧ standardize_bond ⟨["X1", "X2"], [((3 : Int), [RawCell.num 1, RawCell.num 2])]⟩
        = .error noRecognizedColumnsMsg
    ∧ "국고채권(10년)" ∈ (⟨["X1", "국고채권(10년)", "국고채권(2년)"],
        [((5 : Int), [RawCell.bad, RawCell.num 2, RawCell.num 7]),
         (3, [RawCell.blank, RawCell.num 1, RawCell.num 6])]⟩ : RawFrame).cols
    ∧ (bondColCode "국고채권(10년)").isSome
    ∧ (∃ D, standardize_bond ⟨["X1", "국고채권(10년)", "국고채권(2년)"],
        [((5 : Int), [RawCell.bad, RawCell.num 2, RawCell.num 7]),
         (3, [RawCell.blank, RawCell.num 1, RawCell.num 6])]⟩ = .ok D
        ∧ D.cols = ["KTB_2Y", "KTB_10Y"]) := by
  refine ⟨by decide, (c9_standardize_bond _).1 (by decide), by decide, by decide, ?_⟩
  obtain ⟨pre, h1, h2, _⟩ := (c9_standardize_bond
    ⟨["X1", "국고채권(10년)", "국고채권(2년)"],
     [((5 : Int), [RawCell.bad, RawCell.num 2, RawCell.num 7]),
      (3, [RawCell.blank, RawCell.num 1, RawCell.num 6])]⟩).2.1
    "국고채권(10년)" (by decide) (by decide)
  refine ⟨fill_calendar pre, h1, ?_⟩
  rw [fill_calendar_cols, h2]
  decide

theorem contains_iff_mem_str (a : List String) (x : String) : a.contains x = true ↔ x ∈ a := by
  simp

theorem runBatches_eq (outs : List BatchOutcome) (h : BatchOutcome.uiTimeout ∉ outs) :
    ∃ files, runBatches outs = some files
      ∧ files.filterMap goodCols = outs.filterMap parsedCols := by
  induction outs with
  | nil => exact ⟨[], rfl, rfl⟩
  | cons o rest ih =>
    have hrest : BatchOutcome.uiTimeout ∉ rest := fun hm => h (List.mem_cons_of_mem o hm)
    obtain ⟨files, hf, hfm⟩ := ih hrest
    cases o with
    | uiTimeout => exact absurd (List.mem_cons_self _ _) h
    | downloadMissing =>
      refine ⟨files, ?_, ?_⟩
      · show runBatches rest = some files
        exact hf
      · show files.filterMap goodCols = rest.filterMap parsedCols
        exact hfm
    | parseFail =>
      refine ⟨BatchFile.bad :: files, ?_, ?_⟩
      · show (runBatches rest).map (fun fs => BatchFile.bad :: fs) = some (BatchFile.bad :: files)
        rw [hf]
        rfl
      · show files.filterMap goodCols = rest.filterMap parsedCols
        exact hfm
    | parsed cs =>
      refine ⟨BatchFile.good cs :: files, ?_, ?_⟩
      · show (runBatches rest).map (fun fs => BatchFile.good cs :: fs)
          = some (BatchFile.good cs :: files)
        rw [hf]
        rfl
      · show cs :: files.filterMap goodCols = cs :: rest.filterMap parsedCols
        rw [hfm]

theorem collectBond_none_iff (outs : List BatchOutcome) (h : BatchOutcome.uiTimeout ∉ outs) :
    collectBond outs = none ↔ outs.filterMap parsedCols = [] := by
  obtain ⟨files, hf, hfm⟩ := runBatches_eq outs h
  have hbody : collectBond outs = (if files.isEmpty then none else
      match files.filterMap goodCols with
      | [] => none
      | d :: ds => some (ds.foldl mergeColNames d)) := by
    unfold collectBond
    rw [hf]
  rw [hbody, ← hfm]
  by_cases hfe : files.isEmpty = true
  · have hnil : files = [] := by
      cases files with
      | nil => rfl
      | cons a t => simp at hfe
    subst hnil
    simp
  · rw [if_neg hfe]
    cases hfc : files.filterMap goodCols with
    | nil => simp [hfc]
    | cons d ds => simp [hfc]

theorem foldl_merge_mem (x : String) :
    ∀ (ds : List (List String)) (acc : List String),
      List.Pairwise (fun a b => ∀ y ∈ a, y ∉ b) (acc :: ds) →
      (x ∈ acc ∨ ∃ b ∈ ds, x ∈ b) → x ∈ ds.foldl mergeColNames acc := by
  intro ds
  induction ds with
  | nil =>
    intro acc _ hx
    rcases hx with h | ⟨b, hb, _⟩
    · exact h
    · simp at hb
  | cons b ds ih =>
    intro acc hp hx
    have hdisj : ∀ y ∈ acc, y ∉ b :=
      (List.pairwise_cons.mp hp).1 b (List.mem_cons_self _ _)
    have hacc : mergeColNames acc b = acc ++ b := by
      unfold mergeColNames
      have h1 : acc.map (fun c => if b.contains c then c ++ "_x" else c) = acc := by
        rw [show acc = acc.map id from (List.map_id acc).symm]
        rw [List.map_map]
        apply List.map_congr_left
        intro c hc
        simp only [Function.comp, id]
        have hnc : ¬ (b.contains c = true) := by
          rw [contains_iff_mem_str]
          exact hdisj c (by simpa using hc)
        rw [if_neg hnc]
      have h2 : b.map (fun c => if acc.contains c then c ++ "_y" else c) = b := by
        rw [show b = b.map id from (List.map_id b).symm]
        rw [List.map_map]
        apply List.map_congr_left
        intro c hc
        simp only [Function.comp, id]
        have hnc : ¬ (acc.contains c = true) := by
          rw [contains_iff_mem_str]
          intro hca
          exact hdisj c hca (by simpa using hc)
        rw [if_neg hnc]
      rw [h1, h2]
    show x ∈ ds.foldl mergeColNames (mergeColNames acc b)
    rw [hacc]
    apply ih (acc ++ b)
    · apply List.pairwise_cons.mpr
      refine ⟨?_, (List.pairwise_cons.mp (List.pairwise_cons.mp hp).2).2⟩
      intro d' hd' y hy
      rcases List.mem_append.mp hy with hya | hyb
      · exact (List.pairwise_cons.mp hp).1 d' (List.mem_cons_of_mem b hd') y hya
      · exact (List.pairwise_cons.mp (List.pairwise_cons.mp hp).2).1 d' hd' y hyb
    · rcases hx with h | ⟨b', hb', hxb⟩
      · exact Or.inl (List.mem_append.mpr (Or.inl h))
      · rcases List.mem_cons.mp hb' with he | hds
        · subst he
          exact Or.inl (List.mem_append.mpr (Or.inr hxb))
        · exact Or.inr ⟨b', hds, hxb⟩

/-- C1 (amended): in `BondSummary.collect`, only a batch whose export
download never appears (or whose file fails to parse) is skipped with a
logged warning: when no batch raises inside a UI step, the collection
returns a failure exactly when no batch yields a parsed table, and when some
batch parses it succeeds with a merged table containing every parsed batch's
columns (unsuffixed when the batches' column sets are pairwise disjoint).
A UI-step exception such as an `AutomationTimeoutError` in any batch,
however, escapes the batch loop to the outer handler and the whole
collection reports failure, abandoning the already-downloaded batches. -/
theorem c1_partial_success_amended (outs : List BatchOutcome)
    (h : BatchOutcome.uiTimeout ∉ outs) :
    (collectBond outs = none ↔ ∀ cs, BatchOutcome.parsed cs ∉ outs)
    ∧ (∀ cs, BatchOutcome.parsed cs ∈ outs →
        (outs.filterMap parsedCols).Pairwise (fun a b => ∀ x ∈ a, x ∉ b) →
        ∃ m, collectBond outs = some m ∧ ∀ x ∈ cs, x ∈ m) := by
  constructor
  · rw [collectBond_none_iff outs h, List.filterMap_eq_nil_iff]
    constructor
    · intro hall cs hmem
      have := hall (BatchOutcome.parsed cs) hmem
      simp [parsedCols] at this
    · intro hno o ho
      cases o with
      | uiTimeout => exact absurd ho h
      | downloadMissing => rfl
      | parseFail => rfl
      | parsed cs => exact absurd ho (hno cs)
  · intro cs hmem hdisj
    have hcs : cs ∈ outs.filterMap parsedCols :=
      List.mem_filterMap.mpr ⟨BatchOutcome.parsed cs, hmem, rfl⟩
    obtain ⟨files, hf, hfm⟩ := runBatches_eq outs h
    have hbody : collectBond outs = (if files.isEmpty then none else
        match files.filterMap goodCols with
        | [] => none
        | d :: ds => some (ds.foldl mergeColNames d)) := by
      unfold collectBond
      rw [hf]
    cases hfc : files.filterMap goodCols with
    | nil =>
      rw [hfm] at hfc
      rw [hfc] at hcs
      simp at hcs
    | cons d ds =>
      have hfe : files.isEmpty = false := by
        cases files with
        | nil => simp at hfc
        | cons a t => rfl
      refine ⟨ds.foldl mergeColNames d, ?_, ?_⟩
      · rw [hbody, hfe, hfc]
        rfl
      · intro x hx
        have hpair : List.Pairwise (fun a b => ∀ x ∈ a, x ∉ b) (d :: ds) := by
          rw [← hfc, hfm]
          exact hdisj
        apply foldl_merge_mem x ds d hpair
        rw [hfm] at hfc
        rw [hfc] at hcs
        rcases List.mem_cons.mp hcs with he | hds
        · subst he
          exact Or.inl hx
        · exact Or.inr ⟨cs, hds, hx⟩

theorem c1_partial_success_amended_witness :
    BatchOutcome.uiTimeout ∉
      [BatchOutcome.parsed ["KTB_1Y"], BatchOutcome.downloadMissing,
       BatchOutcome.parsed ["CD_91D"]]
    ∧ BatchOutcome.parsed ["CD_91D"] ∈
        [BatchOutcome.parsed ["KTB_1Y"], BatchOutcome.downloadMissing,
         BatchOutcome.parsed ["CD_91D"]]
    ∧ (∃ m, collectBond [BatchOutcome.parsed ["KTB_1Y"], BatchOutcome.downloadMissing,
        BatchOutcome.parsed ["CD_91D"]] = some m ∧ ∀ x ∈ (["CD_91D"] : List String), x ∈ m) :=
  ⟨by decide, by decide,
   (c1_partial_success_amended
     [BatchOutcome.parsed ["KTB_1Y"], BatchOutcome.downloadMissing,
      BatchOutcome.parsed ["CD_91D"]] (by decide)).2 ["CD_91D"] (by decide) (by decide)⟩

/-- C1 (counterexample): the claim that a UI step raising an
`AutomationTimeoutError` during batch B still yields a partial result is
false on the code — with batch A parsed, batch B raising inside a UI step
and batch C parsed, `BondSummary.collect` returns total failure, not a
table containing A's and C's columns. -/
theorem c1_uiTimeout_counterexample :
    collectBond [BatchOutcome.parsed ["KTB_1Y"], BatchOutcome.uiTimeout,
      BatchOutcome.parsed ["CD_91D"]] = none := by
  decide

/-- C2 (counterexample): the claim that every batch is served by a newly
launched browser session (and replays the full navigation) is false on the
code — over the real three-batch catalog the collect trace launches exactly
one browser and navigates exactly once, not once per batch. -/
theorem c2_single_session_counterexample :
    (collectTrace bondBatches).count UIEvent.launch = 1
    ∧ (collectTrace bondBatches).count UIEvent.navigate = 1
    ∧ bondBatches.length = 3
    ∧ ¬ ((collectTrace bondBatches).count UIEvent.launch = bondBatches.length) := by
  refine ⟨by decide, by decide, by decide, by decide⟩

/-- C2 (amended): `BondSummary.collect` launches a single browser session and
navigates once for all batches; the portal's default-checked boxes are all
unchecked once up front, and each batch's checkboxes are unchecked again
after its export, so that — starting from the known default-checked set —
the set of checked checkboxes at each batch's export click is exactly that
batch's checkbox list. -/
theorem c2_session_reuse_amended :
    (collectTrace bondBatches).count UIEvent.launch = 1
    ∧ (collectTrace bondBatches).count UIEvent.navigate = 1
    ∧ (collectTrace bondBatches).count UIEvent.setDates = 1
    ∧ exportStates (collectTrace bondBatches) bondInitUncheck = bondBatches.map Prod.snd := by
  refine ⟨by decide, by decide, by decide, by decide⟩

/-- C3 (counterexample): when two batches contribute a column with the same
name, the pandas outer merge on the date key does not reconcile them into
one column with the first non-missing value — it keeps both columns under
the suffixed names `P_x` and `P_y`, each holding its own batch's value. -/
theorem c3_duplicate_column_counterexample :
    (merge_on_date ⟨["P"], [((0 : Int), [some (1 : Rat)])]⟩
        ⟨["P"], [((0 : Int), [some (2 : Rat)])]⟩).cols = ["P_x", "P_y"]
    ∧ "P" ∉ (merge_on_date ⟨["P"], [((0 : Int), [some (1 : Rat)])]⟩
        ⟨["P"], [((0 : Int), [some (2 : Rat)])]⟩).cols
    ∧ rowAt (merge_on_date ⟨["P"], [((0 : Int), [some (1 : Rat)])]⟩
        ⟨["P"], [((0 : Int), [some (2 : Rat)])]⟩) 0 = some [some 1, some 2] := by
  refine ⟨by decide, by decide, by decide⟩

/-- C3 (amended): when the per-batch tables are joined on the date key and
two batches contribute a column with the same name, no first-non-missing
reconciliation occurs: the merged table keeps two columns, renamed with the
pandas suffixes `_x` (left) and `_y` (right), and at each union date the row
is the left batch's row followed by the right batch's row, each side
all-missing at dates that batch lacks. -/
theorem c3_suffix_merge_amended (L R : DFrame) (hL : L.WF) (hR : R.WF) (c : String)
    (hcl : c ∈ L.cols) (hcr : c ∈ R.cols) :
    (merge_on_date L R).cols
        = L.cols.map (fun c => if R.cols.contains c then c ++ "_x" else c)
          ++ R.cols.map (fun c => if L.cols.contains c then c ++ "_y" else c)
    ∧ (c ++ "_x") ∈ (merge_on_date L R).cols
    ∧ (c ++ "_y") ∈ (merge_on_date L R).cols
    ∧ (∀ d, d ∈ sortedUnion L.dates R.dates →
        rowAt (merge_on_date L R) d = some (rowOrNone L d ++ rowOrNone R d))
    ∧ (∀ d, d ∉ L.dates → rowOrNone L d = L.cols.map (fun _ => none))
    ∧ (∀ d, d ∉ R.dates → rowOrNone R d = R.cols.map (fun _ => none)) := by
  refine ⟨rfl, ?_, ?_, ?_, ?_, ?_⟩
  · apply List.mem_append.mpr
    left
    apply List.mem_map.mpr
    refine ⟨c, hcl, ?_⟩
    rw [if_pos ((contains_iff_mem_str R.cols c).mpr hcr)]
  · apply List.mem_append.mpr
    right
    apply List.mem_map.mpr
    refine ⟨c, hcr, ?_⟩
    rw [if_pos ((contains_iff_mem_str L.cols c).mpr hcl)]
  · intro d hd
    have hu : List.Pairwise (fun a b : Int × List (Option Rat) => a.1 < b.1)
        ((sortedUnion L.dates R.dates).map (fun d => (d, rowOrNone L d ++ rowOrNone R d))) := by
      apply List.pairwise_map.mpr
      exact List.Sorted.lt_of_le (sortedUnion_sorted_le L.dates R.dates)
        (sortedUnion_nodup L.dates R.dates (dates_nodup_of_sorted L hL.2.1)
          (dates_nodup_of_sorted R hR.2.1))
    have hmem : (d, rowOrNone L d ++ rowOrNone R d) ∈
        (sortedUnion L.dates R.dates).map (fun d => (d, rowOrNone L d ++ rowOrNone R d)) :=
      List.mem_map_of_mem _ hd
    unfold rowAt
    have hfind := find?_key_of_mem _ hu (d, rowOrNone L d ++ rowOrNone R d) hmem
    show ((merge_on_date L R).rows.find? (fun x => x.1 == d)).map Prod.snd = _
    rw [show (merge_on_date L R).rows =
        (sortedUnion L.dates R.dates).map (fun d => (d, rowOrNone L d ++ rowOrNone R d)) from rfl]
    rw [hfind]
    rfl
  · intro d hd
    unfold rowOrNone
    rw [List.find?_eq_none.mpr]
    intro r hr
    simp only [beq_iff_eq]
    intro he
    exact hd (he ▸ List.mem_map_of_mem Prod.fst hr)
  · intro d hd
    unfold rowOrNone
    rw [List.find?_eq_none.mpr]
    intro r hr
    simp only [beq_iff_eq]
    intro he
    exact hd (he ▸ List.mem_map_of_mem Prod.fst hr)

theorem c3_suffix_merge_amended_witness :
    (⟨["P", "Q"], [((0 : Int), [some (1 : Rat), some 3])]⟩ : DFrame).WF
    ∧ (⟨["P"], [((1 : Int), [some (2 : Rat)])]⟩ : DFrame).WF
    ∧ "P" ∈ (["P", "Q"] : List String)
    ∧ "P" ∈ (["P"] : List String)
    ∧ ("P" ++ "_x") ∈ (merge_on_date ⟨["P", "Q"], [((0 : Int), [some (1 : Rat), some 3])]⟩
        ⟨["P"], [((1 : Int), [some (2 : Rat)])]⟩).cols
    ∧ rowAt (merge_on_date ⟨["P", "Q"], [((0 : Int), [some (1 : Rat), some 3])]⟩
          ⟨["P"], [((1 : Int), [some (2 : Rat)])]⟩) 1
        = some (rowOrNone ⟨["P", "Q"], [((0 : Int), [some (1 : Rat), some 3])]⟩ 1
            ++ rowOrNone ⟨["P"], [((1 : Int), [some (2 : Rat)])]⟩ 1) :=
  ⟨by decide, by decide, by decide, by decide,
   (c3_suffix_merge_amended _ _ (by decide) (by decide) "P" (by decide) (by decide)).2.1,
   (c3_suffix_merge_amended _ _ (by decide) (by decide) "P" (by decide) (by decide)).2.2.2.1
     1 (by decide)⟩
